import Mathlib

/-!
Verification of the bytecode-VM core of a TypeScript Lox implementation.

The development shallowly embeds the sources of the repository:
`src/vm/Value.ts` (tagged values and `valuesEqual`), `src/vm/Chunk.ts`
(bytecode unit), `src/vm/VM.ts` (dispatch loop), `src/vm/Scanner.ts`,
`src/vm/Compiler.ts` (Pratt compiler for expressions), and the
open-addressing hash table of the step-18 document (`Table`).

Modelling conventions:
* JavaScript numbers are abstracted by exact rationals `ℚ`; none of the
  verified properties depends on floating-point rounding, `NaN` or
  signed infinities (division's value at a zero denominator and decimal
  printing are therefore abstracted).
* `undefined` is modelled explicitly: a runtime value is an
  `Option VmValue`, with `none` standing for JavaScript's `undefined`,
  because the TypeScript code can observe `undefined` from out-of-range
  array reads and empty `Array.pop()`.
* A `throw` is an `Except.error`; code paths with no `throw` are total
  functions.
-/

/-- `VmValue` from `src/vm/Value.ts`:
`null | boolean | number | string | VmObject`.  Heap objects are
abstracted by an identity token: `===` on objects is reference equality,
so two objects are the same value exactly when they are the same token. -/
inductive VmValue where
  | vnil
  | vbool (b : Bool)
  | vnum (q : ℚ)
  | vstr (s : String)
  | vobj (id : Nat)
deriving DecidableEq, Repr

/-- A JavaScript runtime value: a `VmValue` or `undefined` (`none`). -/
abbrev JsValue := Option VmValue

/-- JavaScript's `typeof` on the values the VM can hold
(`typeof null` is `"object"`, as in JavaScript). -/
def jsTypeof : JsValue → String
  | none => "undefined"
  | some .vnil => "object"
  | some (.vbool _) => "boolean"
  | some (.vnum _) => "number"
  | some (.vstr _) => "string"
  | some (.vobj _) => "object"

/-- JavaScript `===` on the values in play: no coercion, objects by
identity.  (`ℚ` has no `-0`/`NaN`, so on numbers this is plain equality.) -/
def strictEq (a b : JsValue) : Bool := a == b

/-- `valuesEqual` from `src/vm/Value.ts`, line for line:
if the `typeof`s differ, the result is `false` unless one side is `null`,
in which case it is `a === b`; otherwise it is `a === b`. -/
def valuesEqual (a b : JsValue) : Bool :=
  if jsTypeof a ≠ jsTypeof b then
    if ¬(a == some .vnil || b == some .vnil) then false
    else strictEq a b
  else strictEq a b

/-- `isTruthy` from `src/vm/VM.ts`: `null` is falsy, booleans are
themselves, everything else (including `undefined`, which falls through
both checks) is truthy. -/
def isTruthy : JsValue → Bool
  | some .vnil => false
  | some (.vbool b) => b
  | _ => true

/-- Decimal rendering of a number; abstracts JavaScript's `String(value)`
on doubles (exact for the integers the claims exercise). -/
def numToString (q : ℚ) : String :=
  if q.den = 1 then toString q.num else toString q

/-- `printValue` from `src/vm/Value.ts`.  `undefined` matches none of the
`typeof` checks and reaches the final `return 'nil'`. -/
def printValue : JsValue → String
  | some .vnil => "nil"
  | some (.vbool b) => if b then "true" else "false"
  | some (.vnum q) => numToString q
  | some (.vstr s) => s
  | some (.vobj _) => "[object Object]"
  | none => "nil"

/-- The five spec-level value tags (absence, boolean, number, string,
heap reference), used to state tag-compatibility properties. -/
def valueTag : VmValue → Nat
  | .vnil => 0
  | .vbool _ => 1
  | .vnum _ => 2
  | .vstr _ => 3
  | .vobj _ => 4

/-! ## Bytecode unit (`src/vm/Chunk.ts`) -/

/-- `Chunk`: instruction byte stream, constant pool, and per-byte line
table. -/
structure Chunk where
  code : List Nat
  constants : List VmValue
  lines : List Nat
deriving DecidableEq, Repr

/-- A fresh chunk (`new Chunk()`). -/
def Chunk.empty : Chunk := ⟨[], [], []⟩

/-- `Chunk.write`: append one byte and its source line. -/
def Chunk.write (c : Chunk) (byte : Nat) (line : Nat) : Chunk :=
  { c with code := c.code ++ [byte], lines := c.lines ++ [line] }

/-- `Chunk.addConstant`: append to the pool, return the new index
(`constants.length - 1` after the push, i.e. the old length). -/
def Chunk.addConstant (c : Chunk) (value : VmValue) : Nat × Chunk :=
  (c.constants.length, { c with constants := c.constants ++ [value] })

/-! ## Opcodes (`src/vm/OpCode.ts`), by their enum ordinals -/

namespace OpCode

def OP_CONSTANT : Nat := 0
def OP_NIL : Nat := 1
def OP_TRUE : Nat := 2
def OP_FALSE : Nat := 3
def OP_ADD : Nat := 4
def OP_SUBTRACT : Nat := 5
def OP_MULTIPLY : Nat := 6
def OP_DIVIDE : Nat := 7
def OP_NEGATE : Nat := 8
def OP_EQUAL : Nat := 9
def OP_GREATER : Nat := 10
def OP_LESS : Nat := 11
def OP_NOT : Nat := 12
def OP_PRINT : Nat := 13
def OP_POP : Nat := 17
def OP_RETURN : Nat := 28

end OpCode

/-! ## The virtual machine (`src/vm/VM.ts`) -/

/-- `InterpretResult` from `src/vm/VM.ts`. -/
inductive InterpretResult where
  | OK
  | COMPILE_ERROR
  | RUNTIME_ERROR
deriving DecidableEq, Repr

/-- The mutable fields of a `VM` instance: current chunk, instruction
pointer, and operand stack (top of stack at the head of the list). -/
structure VMState where
  chunk : Chunk
  ip : Nat
  stack : List JsValue
deriving DecidableEq, Repr

/-- `VM.peek(distance)`: read `distance` slots below the top without
popping; out-of-range reads yield `undefined`. -/
def vmPeek (stack : List JsValue) (distance : Nat) : JsValue :=
  (stack[distance]?).getD none

/-- `VM.pop`: `Array.pop()` yields `undefined` on an empty stack, and the
method throws `"VM stack underflow"` whenever the popped value is
`undefined`. -/
def vmPop (stack : List JsValue) : Except String (JsValue × List JsValue) :=
  match stack with
  | [] => .error "VM stack underflow"
  | v :: rest => if v = none then .error "VM stack underflow" else .ok (v, rest)

/-- The `as number` cast in the arithmetic opcodes; only reached under a
`typeof === "number"` guard, so the default is never produced by the VM. -/
def asNum : JsValue → ℚ
  | some (.vnum q) => q
  | _ => 0

/-- The line rendered by `runtimeError`: `chunk.lines[ip - 1]`, printing
`undefined` on an out-of-range read, as JavaScript string interpolation
would. -/
def lineAt (c : Chunk) (i : Nat) : String :=
  match c.lines[i]? with
  | some n => toString n
  | none => "undefined"

/-- The `console.error` line produced by `VM.runtimeError` when the
instruction pointer already sits past the opcode byte. -/
def runtimeErrorMsg (st : VMState) (msg : String) : String :=
  "[line " ++ lineAt st.chunk (st.ip - 1) ++ "] RuntimeError: " ++ msg

/-- Outcome of dispatching one instruction: continue with a new state, or
halt the run with an `InterpretResult`; both carry the `console.log` and
`console.error` lines emitted by the instruction. -/
inductive StepRes where
  | go (st : VMState) (out : List String) (err : List String)
  | halt (st : VMState) (r : InterpretResult) (out : List String) (err : List String)
deriving DecidableEq, Repr

/-- `VM.binaryOp`: require two numeric operands (checked with `typeof` on
peeks, so a missing operand reads as `undefined` and fails the check),
else report a runtime error; on success pop both and push `op a b`. -/
def binaryOpVM (st : VMState) (op : ℚ → ℚ → VmValue) : Except String StepRes :=
  if jsTypeof (vmPeek st.stack 0) ≠ "number" ∨ jsTypeof (vmPeek st.stack 1) ≠ "number" then
    .ok (.halt st .RUNTIME_ERROR [] [runtimeErrorMsg st "Operands must be numbers."])
  else
    match vmPop st.stack with
    | .error e => .error e
    | .ok (b, s1) =>
      match vmPop s1 with
      | .error e => .error e
      | .ok (a, s2) =>
        .ok (.go { st with stack := some (op (asNum a) (asNum b)) :: s2 } [] [])

/-- `VM.binaryAdd`: two strings concatenate, two numbers add, anything
else is a runtime error. -/
def binaryAddVM (st : VMState) : Except String StepRes :=
  let b := vmPeek st.stack 0
  let a := vmPeek st.stack 1
  match a, b with
  | some (.vstr x), some (.vstr y) =>
    (match vmPop st.stack with
     | .error e => .error e
     | .ok (_, s1) =>
       match vmPop s1 with
       | .error e => .error e
       | .ok (_, s2) =>
         .ok (.go { st with stack := some (.vstr (x ++ y)) :: s2 } [] []))
  | some (.vnum x), some (.vnum y) =>
    (match vmPop st.stack with
     | .error e => .error e
     | .ok (_, s1) =>
       match vmPop s1 with
       | .error e => .error e
       | .ok (_, s2) =>
         .ok (.go { st with stack := some (.vnum (x + y)) :: s2 } [] []))
  | _, _ =>
    .ok (.halt st .RUNTIME_ERROR [] [runtimeErrorMsg st "Operands must be two numbers or two strings."])

/-- `VM.readConstant`: read the operand byte at `ip` and index the
constant pool with it; either read can miss and produce `undefined`. -/
def readConstantVM (st1 : VMState) : JsValue :=
  match st1.chunk.code[st1.ip]? with
  | some i => st1.chunk.constants[i]?
  | none => none

/-! Each arm of the dispatch `switch` in `VM.run`, as its own function of
the state `st1` in which `ip` already sits past the opcode byte. -/

/-- `case OP_CONSTANT`: read the operand byte, push the constant. -/
def execConstant (st1 : VMState) : Except String StepRes :=
  .ok (.go { st1 with ip := st1.ip + 1, stack := readConstantVM st1 :: st1.stack } [] [])

/-- `case OP_NIL`. -/
def execNil (st1 : VMState) : Except String StepRes :=
  .ok (.go { st1 with stack := some .vnil :: st1.stack } [] [])

/-- `case OP_TRUE`. -/
def execTrue (st1 : VMState) : Except String StepRes :=
  .ok (.go { st1 with stack := some (.vbool true) :: st1.stack } [] [])

/-- `case OP_FALSE`. -/
def execFalse (st1 : VMState) : Except String StepRes :=
  .ok (.go { st1 with stack := some (.vbool false) :: st1.stack } [] [])

/-- `case OP_POP`: discard the top of the stack. -/
def execPop (st1 : VMState) : Except String StepRes :=
  match vmPop st1.stack with
  | .error e => .error e
  | .ok (_, s) => .ok (.go { st1 with stack := s } [] [])

/-- `case OP_NEGATE`: a non-numeric operand (peeked, so an empty stack
reads `undefined`) is a runtime error; otherwise pop and push the
negation. -/
def execNegate (st1 : VMState) : Except String StepRes :=
  if jsTypeof (vmPeek st1.stack 0) ≠ "number" then
    .ok (.halt st1 .RUNTIME_ERROR [] [runtimeErrorMsg st1 "Operand must be a number."])
  else
    match vmPop st1.stack with
    | .error e => .error e
    | .ok (v, s) => .ok (.go { st1 with stack := some (.vnum (-(asNum v))) :: s } [] [])

/-- `case OP_NOT`: pop, push the negated truthiness. -/
def execNot (st1 : VMState) : Except String StepRes :=
  match vmPop st1.stack with
  | .error e => .error e
  | .ok (v, s) => .ok (.go { st1 with stack := some (.vbool (!isTruthy v)) :: s } [] [])

/-- `case OP_EQUAL`: pop `b` then `a`, push `valuesEqual(a, b)`. -/
def execEqual (st1 : VMState) : Except String StepRes :=
  match vmPop st1.stack with
  | .error e => .error e
  | .ok (vb, s1) =>
    match vmPop s1 with
    | .error e => .error e
    | .ok (va, s2) =>
      .ok (.go { st1 with stack := some (.vbool (valuesEqual va vb)) :: s2 } [] [])

/-- `case OP_PRINT`: pop and emit one `console.log` line. -/
def execPrint (st1 : VMState) : Except String StepRes :=
  match vmPop st1.stack with
  | .error e => .error e
  | .ok (v, s) => .ok (.go { st1 with stack := s } [printValue v] [])

/-- The `default` arm for an opcode byte the switch does not handle. -/
def execUnknown (st1 : VMState) (b : Nat) : Except String StepRes :=
  .ok (.halt st1 .RUNTIME_ERROR [] [runtimeErrorMsg st1 ("Unknown opcode: " ++ toString b)])

/-- The dispatch `switch` of `VM.run` over a fetched opcode byte `b`;
`st1` is the VM state with `ip` already advanced past the opcode byte. -/
def execOp (st1 : VMState) (b : Nat) : Except String StepRes :=
  match b with
  | 0 => execConstant st1                                    -- OP_CONSTANT
  | 1 => execNil st1                                         -- OP_NIL
  | 2 => execTrue st1                                        -- OP_TRUE
  | 3 => execFalse st1                                       -- OP_FALSE
  | 17 => execPop st1                                        -- OP_POP
  | 8 => execNegate st1                                      -- OP_NEGATE
  | 12 => execNot st1                                        -- OP_NOT
  | 9 => execEqual st1                                       -- OP_EQUAL
  | 10 => binaryOpVM st1 (fun a b => .vbool (decide (a > b))) -- OP_GREATER
  | 11 => binaryOpVM st1 (fun a b => .vbool (decide (a < b))) -- OP_LESS
  | 4 => binaryAddVM st1                                     -- OP_ADD
  | 5 => binaryOpVM st1 (fun a b => .vnum (a - b))           -- OP_SUBTRACT
  | 6 => binaryOpVM st1 (fun a b => .vnum (a * b))           -- OP_MULTIPLY
  | 7 => binaryOpVM st1 (fun a b => .vnum (a / b))           -- OP_DIVIDE
  | 13 => execPrint st1                                      -- OP_PRINT
  | 28 => .ok (.halt st1 .OK [] [])                          -- OP_RETURN
  | b => execUnknown st1 b                                   -- default

/-- One iteration of the `VM.run` dispatch loop: fetch the opcode at
`ip` (an out-of-range fetch reads `undefined` and falls to the `default`
branch, rendering the opcode as `undefined`), advance `ip`, then perform
the operation. -/
def stepA (st : VMState) : Except String StepRes :=
  match st.chunk.code[st.ip]? with
  | none =>
    .ok (.halt { st with ip := st.ip + 1 } .RUNTIME_ERROR []
      [runtimeErrorMsg { st with ip := st.ip + 1 } "Unknown opcode: undefined"])
  | some b => execOp { st with ip := st.ip + 1 } b

theorem binaryOpVM_go {st st' : VMState} {op : ℚ → ℚ → VmValue} {o e : List String}
    (h : binaryOpVM st op = .ok (.go st' o e)) : st'.chunk = st.chunk ∧ st'.ip = st.ip := by
  unfold binaryOpVM at h
  split at h
  · simp at h
  · split at h
    · simp at h
    · split at h
      · simp at h
      · simp only [Except.ok.injEq, StepRes.go.injEq] at h
        obtain ⟨h1, -, -⟩ := h
        subst h1
        exact ⟨rfl, rfl⟩

theorem binaryAddVM_go {st st' : VMState} {o e : List String}
    (h : binaryAddVM st = .ok (.go st' o e)) : st'.chunk = st.chunk ∧ st'.ip = st.ip := by
  simp only [binaryAddVM] at h
  repeat' split at h
  all_goals simp only [Except.ok.injEq, Except.error.injEq, reduceCtorEq,
    StepRes.go.injEq, false_and, and_false] at h
  all_goals try (obtain ⟨h1, -, -⟩ := h; subst h1; exact ⟨rfl, rfl⟩)

theorem execOp_go {s1 st' : VMState} {b : Nat} {o e : List String}
    (h : execOp s1 b = .ok (.go st' o e)) :
    st'.chunk = s1.chunk ∧ s1.ip ≤ st'.ip := by
  unfold execOp at h
  split at h
  · (simp only [execConstant, execNil, execTrue, execFalse, execPop,
      execNegate, execNot, execEqual, execPrint] at h;
     repeat' split at h;
     all_goals simp only [Except.ok.injEq, Except.error.injEq, reduceCtorEq,
       StepRes.go.injEq, false_and, and_false] at h;
     all_goals (obtain ⟨h1, -, -⟩ := h; subst h1; exact ⟨rfl, by dsimp; omega⟩))
  · (simp only [execConstant, execNil, execTrue, execFalse, execPop,
      execNegate, execNot, execEqual, execPrint] at h;
     repeat' split at h;
     all_goals simp only [Except.ok.injEq, Except.error.injEq, reduceCtorEq,
       StepRes.go.injEq, false_and, and_false] at h;
     all_goals (obtain ⟨h1, -, -⟩ := h; subst h1; exact ⟨rfl, by dsimp; omega⟩))
  · (simp only [execConstant, execNil, execTrue, execFalse, execPop,
      execNegate, execNot, execEqual, execPrint] at h;
     repeat' split at h;
     all_goals simp only [Except.ok.injEq, Except.error.injEq, reduceCtorEq,
       StepRes.go.injEq, false_and, and_false] at h;
     all_goals (obtain ⟨h1, -, -⟩ := h; subst h1; exact ⟨rfl, by dsimp; omega⟩))
  · (simp only [execConstant, execNil, execTrue, execFalse, execPop,
      execNegate, execNot, execEqual, execPrint] at h;
     repeat' split at h;
     all_goals simp only [Except.ok.injEq, Except.error.injEq, reduceCtorEq,
       StepRes.go.injEq, false_and, and_false] at h;
     all_goals (obtain ⟨h1, -, -⟩ := h; subst h1; exact ⟨rfl, by dsimp; omega⟩))
  · (simp only [execConstant, execNil, execTrue, execFalse, execPop,
      execNegate, execNot, execEqual, execPrint] at h;
     repeat' split at h;
     all_goals simp only [Except.ok.injEq, Except.error.injEq, reduceCtorEq,
       StepRes.go.injEq, false_and, and_false] at h;
     all_goals (obtain ⟨h1, -, -⟩ := h; subst h1; exact ⟨rfl, by dsimp; omega⟩))
  · (simp only [execConstant, execNil, execTrue, execFalse, execPop,
      execNegate, execNot, execEqual, execPrint] at h;
     repeat' split at h;
     all_goals simp only [Except.ok.injEq, Except.error.injEq, reduceCtorEq,
       StepRes.go.injEq, false_and, and_false] at h;
     all_goals (obtain ⟨h1, -, -⟩ := h; subst h1; exact ⟨rfl, by dsimp; omega⟩))
  · (simp only [execConstant, execNil, execTrue, execFalse, execPop,
      execNegate, execNot, execEqual, execPrint] at h;
     repeat' split at h;
     all_goals simp only [Except.ok.injEq, Except.error.injEq, reduceCtorEq,
       StepRes.go.injEq, false_and, and_false] at h;
     all_goals (obtain ⟨h1, -, -⟩ := h; subst h1; exact ⟨rfl, by dsimp; omega⟩))
  · (simp only [execConstant, execNil, execTrue, execFalse, execPop,
      execNegate, execNot, execEqual, execPrint] at h;
     repeat' split at h;
     all_goals simp only [Except.ok.injEq, Except.error.injEq, reduceCtorEq,
       StepRes.go.injEq, false_and, and_false] at h;
     all_goals (obtain ⟨h1, -, -⟩ := h; subst h1; exact ⟨rfl, by dsimp; omega⟩))
  · (obtain ⟨h1, h2⟩ := binaryOpVM_go h; exact ⟨by rw [h1], by rw [h2]⟩)
  · (obtain ⟨h1, h2⟩ := binaryOpVM_go h; exact ⟨by rw [h1], by rw [h2]⟩)
  · (obtain ⟨h1, h2⟩ := binaryAddVM_go h; exact ⟨by rw [h1], by rw [h2]⟩)
  · (obtain ⟨h1, h2⟩ := binaryOpVM_go h; exact ⟨by rw [h1], by rw [h2]⟩)
  · (obtain ⟨h1, h2⟩ := binaryOpVM_go h; exact ⟨by rw [h1], by rw [h2]⟩)
  · (obtain ⟨h1, h2⟩ := binaryOpVM_go h; exact ⟨by rw [h1], by rw [h2]⟩)
  · (simp only [execConstant, execNil, execTrue, execFalse, execPop,
      execNegate, execNot, execEqual, execPrint] at h;
     repeat' split at h;
     all_goals simp only [Except.ok.injEq, Except.error.injEq, reduceCtorEq,
       StepRes.go.injEq, false_and, and_false] at h;
     all_goals (obtain ⟨h1, -, -⟩ := h; subst h1; exact ⟨rfl, by dsimp; omega⟩))
  · (simp only [Except.ok.injEq, reduceCtorEq] at h)
  · (simp only [execUnknown, Except.ok.injEq, reduceCtorEq] at h)

theorem stepA_go_ip {st st' : VMState} {o e : List String}
    (h : stepA st = .ok (.go st' o e)) :
    st'.chunk = st.chunk ∧ st.ip < st'.ip ∧ st.ip < st.chunk.code.length := by
  rcases hb : st.chunk.code[st.ip]? with _ | b
  · simp only [stepA, hb, Except.ok.injEq, reduceCtorEq] at h
  · have hlen : st.ip < st.chunk.code.length := by
      rcases Nat.lt_or_ge st.ip st.chunk.code.length with hlt | hge
      · exact hlt
      · rw [List.getElem?_eq_none hge] at hb; cases hb
    have hex : execOp { st with ip := st.ip + 1 } b = .ok (.go st' o e) := by
      rw [← h]; simp only [stepA, hb]
    obtain ⟨h1, h2⟩ := execOp_go hex
    refine ⟨h1, ?_, hlen⟩
    have h3 : st.ip + 1 ≤ st'.ip := h2
    omega

/-- The `VM.run` dispatch loop.  Each iteration consumes at least one
code byte and nothing moves `ip` backwards, so the loop terminates;
output lines accumulate in order.  The final `VMState` is the state the
instance's fields hold when `run` returns. -/
def runA (st : VMState) : Except String (InterpretResult × List String × List String × VMState) :=
  match h : stepA st with
  | .error e => .error e
  | .ok (.halt st' r o e) => .ok (r, o, e, st')
  | .ok (.go st' o e) =>
    match runA st' with
    | .error e2 => .error e2
    | .ok (r, o2, e2, stf) => .ok (r, o ++ o2, e ++ e2, stf)
termination_by st.chunk.code.length + 1 - st.ip
decreasing_by
  have h3 := stepA_go_ip h
  rw [h3.1]
  omega

/-- `VM.interpret(chunk)`: overwrite the instance chunk, reset `ip` to
`0` and the stack to empty, then run. -/
def VM.interpret (vm : VMState) (chunk : Chunk) :
    Except String (InterpretResult × List String × List String × VMState) :=
  runA { vm with chunk := chunk, ip := 0, stack := [] }

/-- A freshly constructed `VM` instance (fields before any `interpret`). -/
def VM.new : VMState := ⟨Chunk.empty, 0, []⟩

/-- If a dispatch step halts, the run loop returns that halt's result and
output unchanged. -/
theorem runA_of_halt {st st' : VMState} {r : InterpretResult} {o e : List String}
    (h : stepA st = .ok (.halt st' r o e)) : runA st = .ok (r, o, e, st') := by
  rw [runA]
  split
  · simp_all
  · simp_all
  · simp_all

/-! ## Claim C1: type checking of the arithmetic and comparison opcodes -/

/-- C1: In the VM dispatch loop the arithmetic and comparison opcodes
succeed exactly on numeric operands — `OP_NEGATE`, `OP_SUBTRACT`,
`OP_MULTIPLY`, `OP_DIVIDE`, `OP_GREATER`, `OP_LESS` push their result
precisely when the operands are numbers, and `OP_ADD` precisely when both
operands are numbers (pushing the sum) or both are strings (pushing the
concatenation); every other operand-tag combination halts the dispatch
with the `RUNTIME_ERROR` result instead of pushing, and a halted step
makes the whole run return that result. -/
theorem vm_arith_ops_type_check :
    (∀ (c : Chunk) (ip : Nat) (v : VmValue) (rest : List JsValue),
      c.code[ip]? = some OpCode.OP_NEGATE →
      stepA ⟨c, ip, some v :: rest⟩ =
        match v with
        | .vnum x => .ok (.go ⟨c, ip + 1, some (.vnum (-x)) :: rest⟩ [] [])
        | _ => .ok (.halt ⟨c, ip + 1, some v :: rest⟩ .RUNTIME_ERROR []
            [runtimeErrorMsg ⟨c, ip + 1, some v :: rest⟩ "Operand must be a number."])) ∧
    (∀ (c : Chunk) (ip : Nat) (a b : VmValue) (rest : List JsValue),
      c.code[ip]? = some OpCode.OP_SUBTRACT →
      stepA ⟨c, ip, some b :: some a :: rest⟩ =
        match a, b with
        | .vnum x, .vnum y => .ok (.go ⟨c, ip + 1, some (.vnum (x - y)) :: rest⟩ [] [])
        | _, _ => .ok (.halt ⟨c, ip + 1, some b :: some a :: rest⟩ .RUNTIME_ERROR []
            [runtimeErrorMsg ⟨c, ip + 1, some b :: some a :: rest⟩ "Operands must be numbers."])) ∧
    (∀ (c : Chunk) (ip : Nat) (a b : VmValue) (rest : List JsValue),
      c.code[ip]? = some OpCode.OP_MULTIPLY →
      stepA ⟨c, ip, some b :: some a :: rest⟩ =
        match a, b with
        | .vnum x, .vnum y => .ok (.go ⟨c, ip + 1, some (.vnum (x * y)) :: rest⟩ [] [])
        | _, _ => .ok (.halt ⟨c, ip + 1, some b :: some a :: rest⟩ .RUNTIME_ERROR []
            [runtimeErrorMsg ⟨c, ip + 1, some b :: some a :: rest⟩ "Operands must be numbers."])) ∧
    (∀ (c : Chunk) (ip : Nat) (a b : VmValue) (rest : List JsValue),
      c.code[ip]? = some OpCode.OP_DIVIDE →
      stepA ⟨c, ip, some b :: some a :: rest⟩ =
        match a, b with
        | .vnum x, .vnum y => .ok (.go ⟨c, ip + 1, some (.vnum (x / y)) :: rest⟩ [] [])
        | _, _ => .ok (.halt ⟨c, ip + 1, some b :: some a :: rest⟩ .RUNTIME_ERROR []
            [runtimeErrorMsg ⟨c, ip + 1, some b :: some a :: rest⟩ "Operands must be numbers."])) ∧
    (∀ (c : Chunk) (ip : Nat) (a b : VmValue) (rest : List JsValue),
      c.code[ip]? = some OpCode.OP_GREATER →
      stepA ⟨c, ip, some b :: some a :: rest⟩ =
        match a, b with
        | .vnum x, .vnum y =>
          .ok (.go ⟨c, ip + 1, some (.vbool (decide (x > y))) :: rest⟩ [] [])
        | _, _ => .ok (.halt ⟨c, ip + 1, some b :: some a :: rest⟩ .RUNTIME_ERROR []
            [runtimeErrorMsg ⟨c, ip + 1, some b :: some a :: rest⟩ "Operands must be numbers."])) ∧
    (∀ (c : Chunk) (ip : Nat) (a b : VmValue) (rest : List JsValue),
      c.code[ip]? = some OpCode.OP_LESS →
      stepA ⟨c, ip, some b :: some a :: rest⟩ =
        match a, b with
        | .vnum x, .vnum y =>
          .ok (.go ⟨c, ip + 1, some (.vbool (decide (x < y))) :: rest⟩ [] [])
        | _, _ => .ok (.halt ⟨c, ip + 1, some b :: some a :: rest⟩ .RUNTIME_ERROR []
            [runtimeErrorMsg ⟨c, ip + 1, some b :: some a :: rest⟩ "Operands must be numbers."])) ∧
    (∀ (c : Chunk) (ip : Nat) (a b : VmValue) (rest : List JsValue),
      c.code[ip]? = some OpCode.OP_ADD →
      stepA ⟨c, ip, some b :: some a :: rest⟩ =
        match a, b with
        | .vnum x, .vnum y => .ok (.go ⟨c, ip + 1, some (.vnum (x + y)) :: rest⟩ [] [])
        | .vstr x, .vstr y => .ok (.go ⟨c, ip + 1, some (.vstr (x ++ y)) :: rest⟩ [] [])
        | _, _ => .ok (.halt ⟨c, ip + 1, some b :: some a :: rest⟩ .RUNTIME_ERROR []
            [runtimeErrorMsg ⟨c, ip + 1, some b :: some a :: rest⟩
              "Operands must be two numbers or two strings."])) ∧
    (∀ (st st' : VMState) (r : InterpretResult) (o e : List String),
      stepA st = .ok (.halt st' r o e) → runA st = .ok (r, o, e, st')) := by
  refine ⟨?_, ?_, ?_, ?_, ?_, ?_, ?_, fun _ _ _ _ _ h => runA_of_halt h⟩
  · intro c ip v rest hc
    cases v <;>
      simp [stepA, hc, execOp, execNegate, vmPeek, vmPop, jsTypeof, asNum,
        OpCode.OP_NEGATE]
  all_goals intro c ip a b rest hc
  all_goals cases a <;> cases b <;>
    simp [stepA, hc, execOp, binaryOpVM, binaryAddVM, vmPeek, vmPop, jsTypeof, asNum,
      OpCode.OP_SUBTRACT, OpCode.OP_MULTIPLY, OpCode.OP_DIVIDE, OpCode.OP_GREATER,
      OpCode.OP_LESS, OpCode.OP_ADD]

/-- Witness for C1: concrete instances of each conjunct, with the code
hypotheses discharged at explicit chunks. -/
theorem vm_arith_ops_type_check_witness :
    stepA ⟨⟨[OpCode.OP_SUBTRACT], [], [1]⟩, 0, [some (.vnum 3), some (.vnum 2)]⟩ =
      .ok (.go ⟨⟨[OpCode.OP_SUBTRACT], [], [1]⟩, 1, [some (.vnum (2 - 3))]⟩ [] []) ∧
    stepA ⟨⟨[OpCode.OP_ADD], [], [1]⟩, 0, [some (.vstr "b"), some (.vstr "a")]⟩ =
      .ok (.go ⟨⟨[OpCode.OP_ADD], [], [1]⟩, 1, [some (.vstr ("a" ++ "b"))]⟩ [] []) ∧
    stepA ⟨⟨[OpCode.OP_ADD], [], [1]⟩, 0, [some (.vbool true), some (.vnum 2)]⟩ =
      .ok (.halt ⟨⟨[OpCode.OP_ADD], [], [1]⟩, 1, [some (.vbool true), some (.vnum 2)]⟩
        .RUNTIME_ERROR []
        [runtimeErrorMsg ⟨⟨[OpCode.OP_ADD], [], [1]⟩, 1, [some (.vbool true), some (.vnum 2)]⟩
          "Operands must be two numbers or two strings."]) ∧
    stepA ⟨⟨[OpCode.OP_NEGATE], [], [1]⟩, 0, [some (.vstr "x")]⟩ =
      .ok (.halt ⟨⟨[OpCode.OP_NEGATE], [], [1]⟩, 1, [some (.vstr "x")]⟩ .RUNTIME_ERROR []
        [runtimeErrorMsg ⟨⟨[OpCode.OP_NEGATE], [], [1]⟩, 1, [some (.vstr "x")]⟩
          "Operand must be a number."]) :=
  ⟨vm_arith_ops_type_check.2.1 _ 0 (.vnum 2) (.vnum 3) [] rfl,
   (vm_arith_ops_type_check.2.2.2.2.2.2.1 _ 0 (.vstr "a") (.vstr "b") [] rfl),
   (vm_arith_ops_type_check.2.2.2.2.2.2.1 _ 0 (.vnum 2) (.vbool true) [] rfl),
   vm_arith_ops_type_check.1 _ 0 (.vstr "x") [] rfl⟩

/-! ## Claim C2: tagged equality -/

/-- C2: `valuesEqual` returns `true` only for two values of the same tag
with the same content or identity; values of different tags are never
equal and no coercion happens (`0` is not `false`, `"1"` is not `1`);
and the `OP_EQUAL` instruction pops two values and pushes `valuesEqual`
of them. -/
theorem valuesEqual_tagged_no_coercion :
    (∀ a b : VmValue, valuesEqual (some a) (some b) = true →
      valueTag a = valueTag b ∧ a = b) ∧
    (∀ a b : VmValue, valueTag a ≠ valueTag b →
      valuesEqual (some a) (some b) = false) ∧
    valuesEqual (some (.vnum 0)) (some (.vbool false)) = false ∧
    valuesEqual (some (.vstr "1")) (some (.vnum 1)) = false ∧
    (∀ (c : Chunk) (ip : Nat) (a b : VmValue) (rest : List JsValue),
      c.code[ip]? = some OpCode.OP_EQUAL →
      stepA ⟨c, ip, some b :: some a :: rest⟩ =
        .ok (.go ⟨c, ip + 1, some (.vbool (valuesEqual (some a) (some b))) :: rest⟩ [] [])) := by
  refine ⟨?_, ?_, by decide, by decide, ?_⟩
  · intro a b h
    cases a <;> cases b <;>
      simp_all [valuesEqual, jsTypeof, strictEq]
  · intro a b h
    cases a <;> cases b <;>
      simp_all [valuesEqual, jsTypeof, strictEq, valueTag]
  · intro c ip a b rest hc
    simp [stepA, hc, execOp, execEqual, vmPop, OpCode.OP_EQUAL]

/-- Witness for C2: the conjuncts applied at concrete values, with their
hypotheses discharged there. -/
theorem valuesEqual_tagged_no_coercion_witness :
    (valueTag (.vstr "1") = valueTag (.vnum 1) ∧ VmValue.vstr "1" = .vnum 1 → False) ∧
    valuesEqual (some (.vnum 0)) (some (.vbool false)) = false ∧
    stepA ⟨⟨[OpCode.OP_EQUAL], [], [1]⟩, 0, [some (.vnum 1), some (.vnum 1)]⟩ =
      .ok (.go ⟨⟨[OpCode.OP_EQUAL], [], [1]⟩, 1,
        [some (.vbool (valuesEqual (some (.vnum 1)) (some (.vnum 1))))]⟩ [] []) :=
  ⟨fun hc => by have := valuesEqual_tagged_no_coercion.2.1 (.vstr "1") (.vnum 1)
                    (by intro h; exact absurd (hc.1) (by decide))
                exact absurd hc.2 (by decide),
   valuesEqual_tagged_no_coercion.2.2.1,
   valuesEqual_tagged_no_coercion.2.2.2.2 _ 0 (.vnum 1) (.vnum 1) [] rfl⟩

/-! ## Claim C8: stack underflow is a fatal fault -/

/-- C8: `VM.pop` on an empty operand stack throws the host-level
exception `"VM stack underflow"` — an `Except.error`, not a value and
not the `RUNTIME_ERROR` member of `InterpretResult` used for
language-level errors — and the fault propagates out of the dispatch
loop instead of being absorbed into a result. -/
theorem vm_pop_underflow_is_fatal :
    vmPop ([] : List JsValue) = Except.error "VM stack underflow" ∧
    runA ⟨⟨[OpCode.OP_POP], [], [1]⟩, 0, []⟩ = Except.error "VM stack underflow" := by
  refine ⟨rfl, ?_⟩
  rw [runA]
  split
  · simp_all [stepA, execOp, execPop, vmPop, OpCode.OP_POP]
  · simp_all [stepA, execOp, execPop, vmPop, OpCode.OP_POP]
  · simp_all [stepA, execOp, execPop, vmPop, OpCode.OP_POP]

/-! ## Claim C10: `interpret` depends only on the chunk -/

/-- C10: `VM.interpret` reinitializes the instruction pointer to `0` and
the operand stack to empty before running, so its result, printed
output, and error output depend only on the chunk argument: interpreting
a chunk on any VM instance — whatever it interpreted before — equals
interpreting it on a freshly constructed VM. -/
theorem vm_interpret_depends_only_on_chunk :
    (∀ (vm1 vm2 : VMState) (chunk : Chunk), VM.interpret vm1 chunk = VM.interpret vm2 chunk) ∧
    (∀ (vm : VMState) (chunk : Chunk), VM.interpret vm chunk = VM.interpret VM.new chunk) ∧
    (∀ (vm : VMState) (chunk : Chunk), VM.interpret vm chunk = runA ⟨chunk, 0, []⟩) :=
  ⟨fun _ _ _ => rfl, fun _ _ => rfl, fun _ _ => rfl⟩

/-! ## Token scanner (`src/vm/TokenType.ts`, `src/vm/Token.ts`,
`src/vm/Scanner.ts`)

The source string is modelled as a `List Char`; JavaScript indexes
strings by UTF-16 code unit, which agrees with per-character indexing on
the code points the language's grammar distinguishes. -/

/-- `TokenType` from `src/vm/TokenType.ts`. -/
inductive TokenType where
  | LEFT_PAREN | RIGHT_PAREN | LEFT_BRACE | RIGHT_BRACE
  | COMMA | DOT | MINUS | PLUS | SEMICOLON | SLASH | STAR
  | BANG | BANG_EQUAL | EQUAL | EQUAL_EQUAL
  | GREATER | GREATER_EQUAL | LESS | LESS_EQUAL
  | IDENTIFIER | STRING | NUMBER
  | AND | CLASS | ELSE | FALSE | FOR | FUN | IF | NIL | OR
  | PRINT | RETURN | SUPER | THIS | TRUE | VAR | WHILE
  | ERROR | EOF
deriving DecidableEq, Repr

/-- `VmToken`/`VmErrorToken` from `src/vm/Token.ts`: type, span into the
source, line; `message` is `some _` exactly on error tokens (the
TypeScript `VmErrorToken` subtype). -/
structure VmToken where
  type : TokenType
  start : Nat
  length : Nat
  line : Nat
  message : Option String
deriving DecidableEq, Repr

/-- `getLexeme` from `src/vm/Token.ts`: `source.slice(start, start + length)`. -/
def getLexeme (source : List Char) (t : VmToken) : String :=
  String.mk ((source.drop t.start).take t.length)

/-- The cursor fields of a `VmScanner` instance together with its source. -/
structure VmScanner where
  source : List Char
  start : Nat
  current : Nat
  line : Nat
deriving DecidableEq, Repr

/-- `VmScanner.isAtEnd`. -/
def VmScanner.isAtEnd (s : VmScanner) : Bool :=
  s.source.length ≤ s.current

/-- `VmScanner.peek`: `source[current] ?? '\0'`. -/
def VmScanner.peek (s : VmScanner) : Char :=
  (s.source[s.current]?).getD '\x00'

/-- `VmScanner.peekNext`: `source[current + 1] ?? '\0'`. -/
def VmScanner.peekNext (s : VmScanner) : Char :=
  (s.source[s.current + 1]?).getD '\x00'

/-- `VmScanner.advance`: return `source[current]` and move the cursor.
Every call site is guarded by `isAtEnd`, so the out-of-range default is
never read. -/
def VmScanner.advanceS (s : VmScanner) : Char × VmScanner :=
  ((s.source[s.current]?).getD '\x00', { s with current := s.current + 1 })

/-- `VmScanner.match(expected)`. -/
def VmScanner.matchChar (s : VmScanner) (expected : Char) : Bool × VmScanner :=
  if s.isAtEnd then (false, s)
  else if (s.source[s.current]?).getD '\x00' ≠ expected then (false, s)
  else (true, { s with current := s.current + 1 })

/-- `isAlpha`: the regex `[a-zA-Z_]`. -/
def isAlphaS (c : Char) : Bool :=
  ('a' ≤ c ∧ c ≤ 'z') ∨ ('A' ≤ c ∧ c ≤ 'Z') ∨ c = '_'

/-- `isDigit`: the regex `[0-9]`. -/
def isDigitS (c : Char) : Bool :=
  '0' ≤ c ∧ c ≤ '9'

/-- `isAlphaNumeric`. -/
def isAlphaNumericS (c : Char) : Bool :=
  isAlphaS c || isDigitS c

/-- `VmScanner.makeToken`: span from `start` to `current`, no message. -/
def VmScanner.makeToken (s : VmScanner) (type : TokenType) : VmToken :=
  ⟨type, s.start, s.current - s.start, s.line, none⟩

/-- `VmScanner.errorToken`: an `ERROR`-typed token of length `0`
carrying the diagnostic message. -/
def VmScanner.errorToken (s : VmScanner) (message : String) : VmToken :=
  ⟨.ERROR, s.start, 0, s.line, some message⟩

/-- The comment-consuming inner loop of `skipWhitespace`
(`while (peek() !== '\n' && !isAtEnd()) advance()`), with fuel bounded
by the characters left. -/
def lineCommentLoop : Nat → VmScanner → VmScanner
  | 0, s => s
  | fuel + 1, s =>
    if s.peek ≠ '\n' ∧ ¬s.isAtEnd then lineCommentLoop fuel (s.advanceS).2 else s

/-- `VmScanner.skipWhitespace`: spaces, tabs, carriage returns, newlines
(counting lines) and `//` comments.  Every iteration that does not
return consumes at least one character, so fuel of one beyond the
remaining length reproduces the unbounded JavaScript loop. -/
def skipWhitespaceF : Nat → VmScanner → VmScanner
  | 0, s => s
  | fuel + 1, s =>
    let c := s.peek
    if c = ' ' ∨ c = '\x0d' ∨ c = '\t' then skipWhitespaceF fuel (s.advanceS).2
    else if c = '\n' then
      skipWhitespaceF fuel (({ s with line := s.line + 1 }).advanceS).2
    else if c = '/' then
      if s.peekNext = '/' then
        skipWhitespaceF fuel (lineCommentLoop (s.source.length + 1 - s.current) s)
      else s
    else s

/-- `VmScanner.skipWhitespace` at its sufficient fuel. -/
def VmScanner.skipWhitespace (s : VmScanner) : VmScanner :=
  skipWhitespaceF (s.source.length + 1 - s.current) s

/-- The string-body loop of `VmScanner.string`: consume until a closing
quote or the end of input, counting newlines. -/
def stringLoop : Nat → VmScanner → VmScanner
  | 0, s => s
  | fuel + 1, s =>
    if s.peek ≠ '"' ∧ ¬s.isAtEnd then
      if s.peek = '\n' then stringLoop fuel (({ s with line := s.line + 1 }).advanceS).2
      else stringLoop fuel (s.advanceS).2
    else s

/-- `VmScanner.string`: scan a string literal whose opening quote is
already consumed; unterminated input yields an error token. -/
def VmScanner.scanString (s : VmScanner) : VmToken × VmScanner :=
  let s1 := stringLoop (s.source.length + 1 - s.current) s
  if s1.isAtEnd then (s1.errorToken "Unterminated string.", s1)
  else
    let s2 := (s1.advanceS).2
    (s2.makeToken .STRING, s2)

/-- The digit-consuming loop of `VmScanner.number`. -/
def digitLoop : Nat → VmScanner → VmScanner
  | 0, s => s
  | fuel + 1, s =>
    if isDigitS s.peek then digitLoop fuel (s.advanceS).2 else s

/-- `VmScanner.number`: integer part, then an optional fraction when a
dot is followed by a digit. -/
def VmScanner.scanNumber (s : VmScanner) : VmToken × VmScanner :=
  let s1 := digitLoop (s.source.length + 1 - s.current) s
  if s1.peek = '.' ∧ isDigitS s1.peekNext then
    let s2 := (s1.advanceS).2
    let s3 := digitLoop (s2.source.length + 1 - s2.current) s2
    (s3.makeToken .NUMBER, s3)
  else (s1.makeToken .NUMBER, s1)

/-- The identifier-consuming loop of `VmScanner.identifier`. -/
def identLoop : Nat → VmScanner → VmScanner
  | 0, s => s
  | fuel + 1, s =>
    if isAlphaNumericS s.peek then identLoop fuel (s.advanceS).2 else s

/-- `VmScanner.identifierType`: the static keyword table, defaulting to
`IDENTIFIER`. -/
def VmScanner.identifierType (s : VmScanner) : TokenType :=
  match String.mk ((s.source.drop s.start).take (s.current - s.start)) with
  | "and" => .AND
  | "class" => .CLASS
  | "else" => .ELSE
  | "false" => .FALSE
  | "for" => .FOR
  | "fun" => .FUN
  | "if" => .IF
  | "nil" => .NIL
  | "or" => .OR
  | "print" => .PRINT
  | "return" => .RETURN
  | "super" => .SUPER
  | "this" => .THIS
  | "true" => .TRUE
  | "var" => .VAR
  | "while" => .WHILE
  | _ => .IDENTIFIER

/-- `VmScanner.identifier`. -/
def VmScanner.scanIdentifier (s : VmScanner) : VmToken × VmScanner :=
  let s1 := identLoop (s.source.length + 1 - s.current) s
  (s1.makeToken s1.identifierType, s1)

/-- The character `switch` of `VmScanner.scanToken`, reached when the
character `c` (already consumed) is neither alphabetic nor a digit; the
`default` path produces an error token. -/
def VmScanner.scanDispatch (s : VmScanner) (c : Char) : VmToken × VmScanner :=
  match c with
  | '(' => (s.makeToken .LEFT_PAREN, s)
  | ')' => (s.makeToken .RIGHT_PAREN, s)
  | '{' => (s.makeToken .LEFT_BRACE, s)
  | '}' => (s.makeToken .RIGHT_BRACE, s)
  | ';' => (s.makeToken .SEMICOLON, s)
  | ',' => (s.makeToken .COMMA, s)
  | '.' => (s.makeToken .DOT, s)
  | '-' => (s.makeToken .MINUS, s)
  | '+' => (s.makeToken .PLUS, s)
  | '/' => (s.makeToken .SLASH, s)
  | '*' => (s.makeToken .STAR, s)
  | '!' =>
    (match s.matchChar '=' with
     | (m, s1) => (s1.makeToken (if m then .BANG_EQUAL else .BANG), s1))
  | '=' =>
    (match s.matchChar '=' with
     | (m, s1) => (s1.makeToken (if m then .EQUAL_EQUAL else .EQUAL), s1))
  | '<' =>
    (match s.matchChar '=' with
     | (m, s1) => (s1.makeToken (if m then .LESS_EQUAL else .LESS), s1))
  | '>' =>
    (match s.matchChar '=' with
     | (m, s1) => (s1.makeToken (if m then .GREATER_EQUAL else .GREATER), s1))
  | '"' => s.scanString
  | c => (s.errorToken ("Unexpected character \x27" ++ String.singleton c ++ "\x27."), s)

/-- `VmScanner.scanToken`, line for line: skip whitespace, reset the
token start, emit `EOF` at the end, scan identifiers and numbers, then
dispatch on the consumed character.  The function is total: malformed
input produces an `ERROR` token, never a fault. -/
def VmScanner.scanToken (s0 : VmScanner) : VmToken × VmScanner :=
  let sw := s0.skipWhitespace
  let sb := { sw with start := sw.current }
  if sb.isAtEnd then (sb.makeToken .EOF, sb)
  else
    match sb.advanceS with
    | (c, s) =>
      if isAlphaS c then s.scanIdentifier
      else if isDigitS c then s.scanNumber
      else s.scanDispatch c

/-- A scanner freshly constructed on a source string
(`new VmScanner(source)`). -/
def VmScanner.new (source : String) : VmScanner :=
  ⟨source.data, 0, 0, 1⟩

theorem identifierType_ne_error (s : VmScanner) : s.identifierType ≠ .ERROR := by
  unfold VmScanner.identifierType
  split <;> decide

theorem scanIdentifier_ne_error (s : VmScanner) :
    ((VmScanner.scanIdentifier s).1).type ≠ .ERROR := by
  unfold VmScanner.scanIdentifier
  exact identifierType_ne_error _

theorem scanNumber_ne_error (s : VmScanner) :
    ((VmScanner.scanNumber s).1).type ≠ .ERROR := by
  simp only [VmScanner.scanNumber]
  split <;> simp [VmScanner.makeToken]

theorem scanString_spec (s : VmScanner) :
    ((s.scanString).1.type = .ERROR ∧
      (s.scanString).1.message = some "Unterminated string.") ∨
    ((s.scanString).1.type = .STRING ∧ (s.scanString).1.message = none) := by
  simp only [VmScanner.scanString]
  split
  · exact Or.inl ⟨rfl, rfl⟩
  · exact Or.inr ⟨rfl, rfl⟩

theorem scanDispatch_spec (s : VmScanner) (c : Char) :
    ((s.scanDispatch c).1.type ≠ .ERROR) ∨
    ((s.scanDispatch c).1.message = some "Unterminated string.") ∨
    (∃ c', (s.scanDispatch c).1.message =
      some ("Unexpected character \x27" ++ String.singleton c' ++ "\x27.")) := by
  unfold VmScanner.scanDispatch
  split
  all_goals try (apply Or.inl; simp [VmScanner.makeToken]; done)
  all_goals try (apply Or.inl; simp only [VmScanner.makeToken]; split <;> decide)
  all_goals try (apply Or.inr; apply Or.inr; exact ⟨_, rfl⟩)
  all_goals
    rcases scanString_spec s with ⟨ht, hm⟩ | ⟨ht, hm⟩ <;>
      first
      | (apply Or.inr; apply Or.inl; exact hm)
      | (apply Or.inl; simp [ht])

theorem scanToken_spec (s0 : VmScanner) :
    ((VmScanner.scanToken s0).1.type ≠ .ERROR) ∨
    ((VmScanner.scanToken s0).1.message = some "Unterminated string.") ∨
    (∃ c, (VmScanner.scanToken s0).1.message =
      some ("Unexpected character \x27" ++ String.singleton c ++ "\x27.")) := by
  simp only [VmScanner.scanToken, VmScanner.advanceS]
  split
  · exact Or.inl (by simp [VmScanner.makeToken])
  · split
    · exact Or.inl (scanIdentifier_ne_error _)
    · split
      · exact Or.inl (scanNumber_ne_error _)
      · exact scanDispatch_spec _ _

/-! ## Claim C7: malformed input produces error tokens, never a fault -/

/-- C7: `VmScanner.scanToken` is a total function — it never raises a
host-level fault on any input — and whenever it returns an `ERROR`-typed
token, that token carries a diagnostic message: either
`"Unterminated string."` (unterminated string literal) or
`"Unexpected character '<c>'."` (unrecognized character); the two
malformed inputs are exercised concretely. -/
theorem scanToken_malformed_input_error_token :
    (∀ s : VmScanner, ((VmScanner.scanToken s).1).type = .ERROR →
      ((VmScanner.scanToken s).1).message = some "Unterminated string." ∨
      ∃ c, ((VmScanner.scanToken s).1).message =
        some ("Unexpected character \x27" ++ String.singleton c ++ "\x27.")) ∧
    VmScanner.scanToken (VmScanner.new "@") =
      (⟨.ERROR, 0, 0, 1, some "Unexpected character \x27@\x27."⟩, ⟨"@".data, 0, 1, 1⟩) ∧
    VmScanner.scanToken (VmScanner.new "\"ab") =
      (⟨.ERROR, 0, 0, 1, some "Unterminated string."⟩, ⟨"\"ab".data, 0, 3, 1⟩) := by
  refine ⟨?_, by decide, by decide⟩
  intro s h
  rcases scanToken_spec s with ht | hm | hm
  · exact absurd h ht
  · exact Or.inl hm
  · exact Or.inr hm

/-- Witness for C7: the classification applied to the concrete
unrecognized-character input, its hypothesis discharged by evaluation. -/
theorem scanToken_malformed_input_error_token_witness :
    ((VmScanner.scanToken (VmScanner.new "@")).1).message = some "Unterminated string." ∨
    ∃ c, ((VmScanner.scanToken (VmScanner.new "@")).1).message =
      some ("Unexpected character \x27" ++ String.singleton c ++ "\x27.") :=
  scanToken_malformed_input_error_token.1 (VmScanner.new "@") (by decide)

/-! ## The Pratt compiler (`src/vm/Compiler.ts`)

The `Compiler` class fields become an explicit state record; the
`console.error` lines produced by `errorAt` during one `compile` call
are collected in `errors`.  The parse handlers form a closed static
table (`rules`), so they are modelled as a small enumeration dispatched
by `runPrefixF`; the unbounded recursion of the Pratt parser is fuelled,
and every verified property holds for every fuel. -/

namespace Precedence

def NONE : Nat := 0
def ASSIGNMENT : Nat := 1
def OR : Nat := 2
def AND : Nat := 3
def EQUALITY : Nat := 4
def COMPARISON : Nat := 5
def TERM : Nat := 6
def FACTOR : Nat := 7
def UNARY : Nat := 8
def CALL : Nat := 9
def PRIMARY : Nat := 10

end Precedence

/-- The prefix parse handlers that occur in the `rules` table. -/
inductive PrefixHandler where
  | group
  | unaryH
  | numberH
  | literalH
deriving DecidableEq, Repr

/-- The infix parse handlers that occur in the `rules` table. -/
inductive InfixHandler where
  | binaryH
deriving DecidableEq, Repr

/-- A `ParseRule`: optional prefix handler, optional infix handler and a
binding precedence (`pfx`/`ifx` name the `prefix`/`infix` fields). -/
structure ParseRule where
  pfx : Option PrefixHandler
  ifx : Option InfixHandler
  prec : Nat
deriving DecidableEq, Repr

/-- The static `rules` table of `src/vm/Compiler.ts`; token types
without an entry fall back to `NONE_RULE` (`getRule`). -/
def getRule : TokenType → ParseRule
  | .LEFT_PAREN => ⟨some .group, none, Precedence.NONE⟩
  | .MINUS => ⟨some .unaryH, some .binaryH, Precedence.TERM⟩
  | .PLUS => ⟨none, some .binaryH, Precedence.TERM⟩
  | .SLASH => ⟨none, some .binaryH, Precedence.FACTOR⟩
  | .STAR => ⟨none, some .binaryH, Precedence.FACTOR⟩
  | .BANG => ⟨some .unaryH, none, Precedence.NONE⟩
  | .BANG_EQUAL => ⟨none, some .binaryH, Precedence.EQUALITY⟩
  | .EQUAL_EQUAL => ⟨none, some .binaryH, Precedence.EQUALITY⟩
  | .GREATER => ⟨none, some .binaryH, Precedence.COMPARISON⟩
  | .GREATER_EQUAL => ⟨none, some .binaryH, Precedence.COMPARISON⟩
  | .LESS => ⟨none, some .binaryH, Precedence.COMPARISON⟩
  | .LESS_EQUAL => ⟨none, some .binaryH, Precedence.COMPARISON⟩
  | .NUMBER => ⟨some .numberH, none, Precedence.NONE⟩
  | .FALSE => ⟨some .literalH, none, Precedence.NONE⟩
  | .TRUE => ⟨some .literalH, none, Precedence.NONE⟩
  | .NIL => ⟨some .literalH, none, Precedence.NONE⟩
  | _ => ⟨none, none, Precedence.NONE⟩

/-- The fields of a `Compiler` instance.  `current`/`previous` are
`none` while still `undefined` (fresh instance); `errors` records the
`console.error` lines of the current compile. -/
structure CompilerState where
  source : List Char
  scanner : VmScanner
  current : Option VmToken
  previous : Option VmToken
  hadError : Bool
  panicMode : Bool
  chunk : Chunk
  errors : List String
deriving DecidableEq, Repr

/-- Reading a field of the JavaScript `undefined` token would be a
`TypeError`; every read in the compiler follows an `advance` that stored
a real token, so this default is never consulted. -/
def dummyToken : VmToken := ⟨.ERROR, 0, 0, 0, none⟩

/-- Access a possibly-still-`undefined` token field. -/
def getTok (t : Option VmToken) : VmToken := t.getD dummyToken

/-- `Compiler.errorAt`: once in panic mode further errors are dropped;
otherwise enter panic mode, log `[line N] Error: <msg>` and set the
error flag. -/
def errorAtC (st : CompilerState) (token : VmToken) (message : String) : CompilerState :=
  if st.panicMode then st
  else
    let line := "[line " ++ toString token.line ++ "] Error: " ++ message
    { st with panicMode := true, errors := st.errors ++ [line], hadError := true }

/-- `Compiler.error`: report at the previous token. -/
def errorC (st : CompilerState) (message : String) : CompilerState :=
  errorAtC st (getTok st.previous) message

/-- `Compiler.errorAtCurrent`. -/
def errorAtCurrentC (st : CompilerState) (message : String) : CompilerState :=
  errorAtC st (getTok st.current) message

/-- The scan loop inside `Compiler.advance`: scan tokens, reporting each
`ERROR` token, until a non-error token arrives.  Every error token
consumes at least one character, so fuel one beyond the remaining
length reproduces the unbounded loop. -/
def advanceLoopF : Nat → CompilerState → CompilerState
  | 0, st => st
  | fuel + 1, st =>
    match st.scanner.scanToken with
    | (tok, sc) =>
      let st1 := { st with current := some tok, scanner := sc }
      if tok.type ≠ .ERROR then st1
      else advanceLoopF fuel (errorAtCurrentC st1 (tok.message.getD ""))

/-- `Compiler.advance`: shift `current` into `previous`, then scan. -/
def advanceC (st : CompilerState) : CompilerState :=
  advanceLoopF (st.scanner.source.length + 1 - st.scanner.current)
    { st with previous := st.current }

/-- `Compiler.consume`. -/
def consumeC (st : CompilerState) (type : TokenType) (message : String) : CompilerState :=
  if (getTok st.current).type = type then advanceC st
  else errorAtCurrentC st message

/-- `Compiler.emitByte`: write through to the chunk at the previous
token's line. -/
def emitByteC (st : CompilerState) (byte : Nat) : CompilerState :=
  { st with chunk := st.chunk.write byte (getTok st.previous).line }

/-- `Compiler.emitBytes`. -/
def emitBytesC (st : CompilerState) (b1 b2 : Nat) : CompilerState :=
  emitByteC (emitByteC st b1) b2

/-- `Compiler.emitReturn`. -/
def emitReturnC (st : CompilerState) : CompilerState :=
  emitByteC st OpCode.OP_RETURN

/-- `Compiler.emitConstant`: add to the pool first; an index above 255
records a compile error and emits nothing. -/
def emitConstantC (st : CompilerState) (value : VmValue) : CompilerState :=
  match st.chunk.addConstant value with
  | (idx, ch) =>
    let st1 := { st with chunk := ch }
    if 255 < idx then errorC st1 "Too many constants in one chunk."
    else emitBytesC st1 OpCode.OP_CONSTANT idx

/-- Numeric value of a digit run. -/
def digitsVal (cs : List Char) : Nat :=
  cs.foldl (fun n c => 10 * n + (c.toNat - '0'.toNat)) 0

/-- `parseFloat` on a `NUMBER` lexeme (`digits` or `digits.digits`),
abstracted to the exact rational it denotes. -/
def parseFloatQ (s : String) : ℚ :=
  match s.data.splitOn '.' with
  | [i] => (digitsVal i : ℚ)
  | [i, f] => (digitsVal i : ℚ) + (digitsVal f : ℚ) / ((10 : ℚ) ^ f.length)
  | _ => 0

/-- The `number` parse handler: emit the literal as a constant. -/
def numberFnC (st : CompilerState) : CompilerState :=
  emitConstantC st (.vnum (parseFloatQ (getLexeme st.source (getTok st.previous))))

/-- The `literal` parse handler. -/
def literalFnC (st : CompilerState) : CompilerState :=
  match (getTok st.previous).type with
  | .FALSE => emitByteC st OpCode.OP_FALSE
  | .NIL => emitByteC st OpCode.OP_NIL
  | .TRUE => emitByteC st OpCode.OP_TRUE
  | _ => st

mutual

/-- `Compiler.parsePrecedence`: advance, run the prefix handler of the
previous token (or report `"Expect expression."`), then fold infix
operators of at least the requested precedence. -/
def parsePrecedenceF : Nat → Nat → CompilerState → CompilerState
  | 0, _, st => st
  | fuel + 1, prec, st =>
    let st1 := advanceC st
    match (getRule (getTok st1.previous).type).pfx with
    | none => errorC st1 "Expect expression."
    | some pf =>
      infixLoopF fuel prec (decide (prec ≤ Precedence.ASSIGNMENT))
        (runPrefixF fuel pf (decide (prec ≤ Precedence.ASSIGNMENT)) st1)

/-- Dispatch a prefix handler from the `rules` table. -/
def runPrefixF : Nat → PrefixHandler → Bool → CompilerState → CompilerState
  | 0, _, _, st => st
  | fuel + 1, pf, _canAssign, st =>
    match pf with
    | .group => groupingF fuel st
    | .unaryH => unaryF fuel st
    | .numberH => numberFnC st
    | .literalH => literalFnC st

/-- The `grouping` parse handler. -/
def groupingF : Nat → CompilerState → CompilerState
  | 0, st => st
  | fuel + 1, st =>
    consumeC (expressionF fuel st) .RIGHT_PAREN "Expect \x27)\x27 after expression."

/-- `Compiler.expression`. -/
def expressionF : Nat → CompilerState → CompilerState
  | 0, st => st
  | fuel + 1, st => parsePrecedenceF fuel Precedence.ASSIGNMENT st

/-- The `unary` parse handler. -/
def unaryF : Nat → CompilerState → CompilerState
  | 0, st => st
  | fuel + 1, st =>
    let operatorType := (getTok st.previous).type
    let st1 := parsePrecedenceF fuel Precedence.UNARY st
    match operatorType with
    | .MINUS => emitByteC st1 OpCode.OP_NEGATE
    | .BANG => emitByteC st1 OpCode.OP_NOT
    | _ => st1

/-- The `binary` parse handler. -/
def binaryF : Nat → CompilerState → CompilerState
  | 0, st => st
  | fuel + 1, st =>
    let operatorType := (getTok st.previous).type
    let st1 := parsePrecedenceF fuel ((getRule operatorType).prec + 1) st
    match operatorType with
    | .PLUS => emitByteC st1 OpCode.OP_ADD
    | .MINUS => emitByteC st1 OpCode.OP_SUBTRACT
    | .STAR => emitByteC st1 OpCode.OP_MULTIPLY
    | .SLASH => emitByteC st1 OpCode.OP_DIVIDE
    | .BANG_EQUAL => emitBytesC st1 OpCode.OP_EQUAL OpCode.OP_NOT
    | .EQUAL_EQUAL => emitByteC st1 OpCode.OP_EQUAL
    | .GREATER => emitByteC st1 OpCode.OP_GREATER
    | .GREATER_EQUAL => emitBytesC st1 OpCode.OP_LESS OpCode.OP_NOT
    | .LESS => emitByteC st1 OpCode.OP_LESS
    | .LESS_EQUAL => emitBytesC st1 OpCode.OP_GREATER OpCode.OP_NOT
    | _ => st1

/-- The infix loop of `parsePrecedence`.  A token can enter it only with
a rule precedence of at least `ASSIGNMENT`, and every such rule has an
infix handler, so the `none` arm (where the TypeScript non-null
assertion would fault) is unreachable. -/
def infixLoopF : Nat → Nat → Bool → CompilerState → CompilerState
  | 0, _, _, st => st
  | fuel + 1, prec, canAssign, st =>
    if prec ≤ (getRule (getTok st.current).type).prec then
      let st1 := advanceC st
      match (getRule (getTok st1.previous).type).ifx with
      | some .binaryH => infixLoopF fuel prec canAssign (binaryF fuel st1)
      | none => st1
    else st

end

/-- Fuel that dominates the recursion depth of the Pratt parser on the
given source: the depth is bounded by the token count, which is bounded
by the length.  Every verified property holds for every fuel. -/
def compileFuel (source : String) : Nat := 2 * source.length + 8

/-- `Compiler.compile(source)` on an instance whose carried-over
`current`/`previous` fields are `pre`: reset `source`, a fresh scanner,
a fresh chunk and both error flags, then parse one expression, consume
`EOF` and emit the return. -/
def initComp (pre : Option VmToken × Option VmToken) (source : String) : CompilerState :=
  { source := source.data, scanner := VmScanner.new source,
    current := pre.1, previous := pre.2,
    hadError := false, panicMode := false, chunk := Chunk.empty, errors := [] }

def compileWith (pre : Option VmToken × Option VmToken) (source : String) : CompilerState :=
  emitReturnC
    (consumeC (expressionF (compileFuel source) (advanceC (initComp pre source))) .EOF
      "Expect end of expression.")

/-- `Compiler.compile`'s returned value (`null` on `hadError`) together
with the instance state it leaves behind. -/
def Compiler.compile (pre : Option VmToken × Option VmToken) (source : String) :
    Option Chunk × CompilerState :=
  (if (compileWith pre source).hadError then none else some (compileWith pre source).chunk,
    compileWith pre source)

theorem errorAtC_prev (st : CompilerState) (p : Option VmToken) (tok : VmToken) (m : String) :
    errorAtC { st with previous := p } tok m = { errorAtC st tok m with previous := p } := by
  unfold errorAtC
  by_cases h : st.panicMode = true
  · simp [h]
  · simp [h]

theorem advanceLoopF_prev : ∀ (fuel : Nat) (st : CompilerState) (p : Option VmToken),
    advanceLoopF fuel { st with previous := p } = { advanceLoopF fuel st with previous := p } := by
  intro fuel
  induction fuel with
  | zero => intro st p; rfl
  | succ n ih =>
    intro st p
    simp only [advanceLoopF]
    rcases hscan : st.scanner.scanToken with ⟨tok, sc⟩
    simp only [show ({ st with previous := p } : CompilerState).scanner = st.scanner from rfl,
      hscan]
    by_cases ht : tok.type = .ERROR
    · rw [if_neg (show ¬(tok.type ≠ TokenType.ERROR) from fun hne => hne ht),
        if_neg (show ¬(tok.type ≠ TokenType.ERROR) from fun hne => hne ht)]
      have h1 : errorAtCurrentC { st with previous := p, current := some tok, scanner := sc }
            (tok.message.getD "") =
          { errorAtCurrentC { st with current := some tok, scanner := sc }
              (tok.message.getD "") with previous := p } := by
        unfold errorAtCurrentC
        exact errorAtC_prev { st with current := some tok, scanner := sc } p _ _
      rw [h1, ih]
    · rw [if_pos ht, if_pos ht]

theorem advanceLoopF_current (n : Nat) (st : CompilerState) (c : Option VmToken) :
    advanceLoopF (n + 1) { st with current := c } = advanceLoopF (n + 1) st := rfl

theorem parsePrecedenceF_prev (fuel prec : Nat) (st : CompilerState) (p : Option VmToken) :
    parsePrecedenceF (fuel + 1) prec { st with previous := p } =
      parsePrecedenceF (fuel + 1) prec st := rfl

/-- `compile` ignores the `current`/`previous` tokens left over from
earlier compiles: its first `advance` overwrites `current`, and the
stale value shifted into `previous` is overwritten by the `advance` at
the head of `parsePrecedence` before anything reads it. -/
theorem compileWith_pre_irrel (pre : Option VmToken × Option VmToken) (s : String) :
    compileWith pre s = compileWith (none, none) s := by
  have e1 : advanceC (initComp pre s) =
      { advanceLoopF (s.data.length + 1) (initComp (pre.1, none) s) with previous := pre.1 } :=
    advanceLoopF_prev (s.data.length + 1) (initComp (pre.1, none) s) pre.1
  have e2 : advanceLoopF (s.data.length + 1) (initComp (pre.1, none) s) =
      advanceLoopF (s.data.length + 1) (initComp (none, none) s) :=
    advanceLoopF_current s.data.length (initComp (none, none) s) pre.1
  have e3 : ∀ st : CompilerState, ∀ p : Option VmToken,
      expressionF (compileFuel s) { st with previous := p } =
        expressionF (compileFuel s) st := by
    intro st p
    show parsePrecedenceF (2 * s.length + 7) Precedence.ASSIGNMENT { st with previous := p } =
      parsePrecedenceF (2 * s.length + 7) Precedence.ASSIGNMENT st
    exact parsePrecedenceF_prev (2 * s.length + 6) Precedence.ASSIGNMENT st p
  unfold compileWith
  rw [e1, e2, e3]
  rfl

/-! ## Claim C5: compilation is deterministic -/

/-- C5: for every source string, any two calls to `Compiler.compile` —
with any token state carried over from whatever the instance compiled
before, hence on the same or different instances — produce identical
results: both fail, or both return bytecode units with identical
instruction bytes, constant pools, and line tables (the equality below
covers the full returned chunk option and the full final instance
state). -/
theorem compile_deterministic (pre1 pre2 : Option VmToken × Option VmToken) (s : String) :
    Compiler.compile pre1 s = Compiler.compile pre2 s := by
  unfold Compiler.compile
  rw [compileWith_pre_irrel pre1 s, compileWith_pre_irrel pre2 s]

/-! ## Invariants of one `compile` pass

`errMeasure` is constant across every compiler operation: an error
report consumes the single "not yet panicking" credit, so at most one
error line can ever be logged in a pass (panic mode is never cleared).
`CInv` carries the panic-implies-error flag link and the constant-pool
bound for successful passes. -/

/-- Error lines logged plus one credit while not in panic mode. -/
def errMeasure (st : CompilerState) : Nat :=
  st.errors.length + (if st.panicMode then 0 else 1)

/-- Pass invariant: panic mode implies the error flag, and an error-free
state has at most 256 constants. -/
def CInv (st : CompilerState) : Prop :=
  (st.panicMode = true → st.hadError = true) ∧
  (st.hadError = false → st.chunk.constants.length ≤ 256)

/-- `st'` is reachable from `st` by compiler operations: the invariant
transports and the error measure is unchanged. -/
def PresR (st st' : CompilerState) : Prop :=
  (CInv st → CInv st') ∧ errMeasure st' = errMeasure st

theorem PresR.rfl (st : CompilerState) : PresR st st := ⟨id, Eq.refl _⟩

theorem PresR.trans {a b c : CompilerState} (h1 : PresR a b) (h2 : PresR b c) : PresR a c :=
  ⟨fun h => h2.1 (h1.1 h), h2.2.trans h1.2⟩

theorem presR_errorAtC (st : CompilerState) (tok : VmToken) (m : String) :
    PresR st (errorAtC st tok m) := by
  unfold errorAtC
  by_cases h : st.panicMode = true
  · rw [if_pos h]; exact PresR.rfl st
  · rw [if_neg h]
    constructor
    · intro hinv
      exact ⟨fun _ => rfl, fun hfalse => by cases hfalse⟩
    · simp [errMeasure, h]

theorem presR_errorC (st : CompilerState) (m : String) : PresR st (errorC st m) :=
  presR_errorAtC st _ m

theorem presR_errorAtCurrentC (st : CompilerState) (m : String) :
    PresR st (errorAtCurrentC st m) :=
  presR_errorAtC st _ m

theorem presR_emitByteC (st : CompilerState) (b : Nat) : PresR st (emitByteC st b) :=
  ⟨fun h => h, rfl⟩

theorem presR_emitBytesC (st : CompilerState) (b1 b2 : Nat) : PresR st (emitBytesC st b1 b2) :=
  ⟨fun h => h, rfl⟩

theorem presR_emitReturnC (st : CompilerState) : PresR st (emitReturnC st) :=
  ⟨fun h => h, rfl⟩

theorem presR_emitConstantC (st : CompilerState) (v : VmValue) :
    PresR st (emitConstantC st v) := by
  unfold emitConstantC
  simp only [Chunk.addConstant]
  by_cases h : 255 < st.chunk.constants.length
  · rw [if_pos h]
    constructor
    · intro hinv
      unfold errorC errorAtC
      by_cases hp : st.panicMode = true
      · rw [if_pos hp]
        refine ⟨fun _ => hinv.1 hp, fun hfe => ?_⟩
        have hfe2 : st.hadError = false := hfe
        rw [hinv.1 hp] at hfe2
        cases hfe2
      · rw [if_neg hp]
        refine ⟨fun _ => rfl, fun hfe => ?_⟩
        have hfe2 : true = false := hfe
        cases hfe2
    · exact ((presR_errorC _ _).2).trans rfl
  · rw [if_neg h]
    constructor
    · intro hinv
      refine ⟨hinv.1, fun _ => ?_⟩
      have : (emitBytesC { st with chunk := { st.chunk with
          constants := st.chunk.constants ++ [v] } } OpCode.OP_CONSTANT
          st.chunk.constants.length).chunk.constants.length
          = st.chunk.constants.length + 1 := by
        simp [emitBytesC, emitByteC, Chunk.write]
      rw [this]
      omega
    · rfl

theorem presR_advanceLoopF : ∀ (fuel : Nat) (st : CompilerState),
    PresR st (advanceLoopF fuel st) := by
  intro fuel
  induction fuel with
  | zero => intro st; exact PresR.rfl st
  | succ n ih =>
    intro st
    simp only [advanceLoopF]
    rcases hscan : st.scanner.scanToken with ⟨tok, sc⟩
    by_cases ht : tok.type = .ERROR
    · rw [if_neg (show ¬(tok.type ≠ TokenType.ERROR) from fun hne => hne ht)]
      refine PresR.trans (b := { st with current := some tok, scanner := sc }) ⟨fun h => h, rfl⟩
        (PresR.trans (presR_errorAtCurrentC _ _) (ih _))
    · rw [if_pos ht]
      exact ⟨fun h => h, rfl⟩

theorem presR_advanceC (st : CompilerState) : PresR st (advanceC st) :=
  PresR.trans (b := { st with previous := st.current }) ⟨fun h => h, rfl⟩
    (presR_advanceLoopF _ _)

theorem presR_consumeC (st : CompilerState) (t : TokenType) (m : String) :
    PresR st (consumeC st t m) := by
  unfold consumeC
  split
  · exact presR_advanceC st
  · exact presR_errorAtCurrentC st m

theorem presR_numberFnC (st : CompilerState) : PresR st (numberFnC st) :=
  presR_emitConstantC st _

theorem presR_literalFnC (st : CompilerState) : PresR st (literalFnC st) := by
  unfold literalFnC
  split
  · exact presR_emitByteC st _
  · exact presR_emitByteC st _
  · exact presR_emitByteC st _
  · exact PresR.rfl st

theorem presR_parser_pack : ∀ fuel : Nat,
    (∀ prec st, PresR st (parsePrecedenceF fuel prec st)) ∧
    (∀ pf ca st, PresR st (runPrefixF fuel pf ca st)) ∧
    (∀ st, PresR st (groupingF fuel st)) ∧
    (∀ st, PresR st (expressionF fuel st)) ∧
    (∀ st, PresR st (unaryF fuel st)) ∧
    (∀ st, PresR st (binaryF fuel st)) ∧
    (∀ prec ca st, PresR st (infixLoopF fuel prec ca st)) := by
  intro fuel
  induction fuel with
  | zero =>
    exact ⟨fun _ st => PresR.rfl st, fun _ _ st => PresR.rfl st, fun st => PresR.rfl st,
      fun st => PresR.rfl st, fun st => PresR.rfl st, fun st => PresR.rfl st,
      fun _ _ st => PresR.rfl st⟩
  | succ n ih =>
    obtain ⟨ihp, ihr, ihg, ihe, ihu, ihb, ihi⟩ := ih
    refine ⟨?_, ?_, ?_, ?_, ?_, ?_, ?_⟩
    · intro prec st
      simp only [parsePrecedenceF]
      rcases hpf : (getRule (getTok (advanceC st).previous).type).pfx with _ | pf
      · simp only [hpf]
        exact (presR_advanceC st).trans (presR_errorC _ _)
      · simp only [hpf]
        exact ((presR_advanceC st).trans (ihr _ _ _)).trans (ihi _ _ _)
    · intro pf ca st
      simp only [runPrefixF]
      cases pf
      · exact ihg st
      · exact ihu st
      · exact presR_numberFnC st
      · exact presR_literalFnC st
    · intro st
      simp only [groupingF]
      exact (ihe st).trans (presR_consumeC _ _ _)
    · intro st
      simp only [expressionF]
      exact ihp _ st
    · intro st
      simp only [unaryF]
      split
      · exact (ihp _ st).trans (presR_emitByteC _ _)
      · exact (ihp _ st).trans (presR_emitByteC _ _)
      · exact ihp _ st
    · intro st
      simp only [binaryF]
      split <;>
        first
        | exact (ihp _ st).trans (presR_emitByteC _ _)
        | exact (ihp _ st).trans (presR_emitBytesC _ _ _)
        | exact ihp _ st
    · intro prec ca st
      simp only [infixLoopF]
      split
      · rcases hix : (getRule (getTok (advanceC st).previous).type).ifx with _ | ix
        · simp only [hix]
          exact presR_advanceC st
        · cases ix
          simp only [hix]
          exact ((presR_advanceC st).trans (ihb _)).trans (ihi _ _ _)
      · exact PresR.rfl st

/-- The whole of one `compile` call preserves the invariant and the
error measure from the reset state. -/
theorem presR_compileWith (pre : Option VmToken × Option VmToken) (s : String) :
    PresR (initComp pre s) (compileWith pre s) := by
  unfold compileWith
  exact ((presR_advanceC _).trans ((presR_parser_pack _).2.2.2.1 _)).trans
    ((presR_consumeC _ _ _).trans (presR_emitReturnC _))

/-! ## Claim C4 (corrected): a pass reports at most one error -/

/-- C4 (amended): a single `Compiler.compile` pass records at most one
error: the first error enters panic mode, panic mode is never cleared
during the pass (this expression-only compiler has no statement-boundary
synchronization), and `errorAt` drops every further report; errors are
recorded in the error log and signalled through the `hadError` flag,
never raised as a fault (the embedding is a total function). -/
theorem compile_reports_at_most_one_error (pre : Option VmToken × Option VmToken)
    (s : String) : (Compiler.compile pre s).2.errors.length ≤ 1 := by
  have h := (presR_compileWith pre s).2
  have h0 : errMeasure (initComp pre s) = 1 := by simp [errMeasure, initComp]
  rw [h0] at h
  show (compileWith pre s).errors.length ≤ 1
  unfold errMeasure at h
  exact le_of_le_of_eq (Nat.le_add_right _ _) h

set_option maxRecDepth 40000 in
set_option maxHeartbeats 2000000 in
/-- Counterexample for C4 as stated: the source `"1 + ; 2 +"` contains
two independent syntax errors separated by the statement boundary `;`
(a missing operand before it and a trailing operator after it), yet one
compile pass reports exactly one error line and fails. -/
theorem compile_panic_suppresses_second_error :
    (Compiler.compile (none, none) "1 + ; 2 +").1 = none ∧
    (Compiler.compile (none, none) "1 + ; 2 +").2.errors =
      ["[line 1] Error: Expect expression."] := by
  constructor
  · decide
  · decide

/-! ## Claim C6: at most 256 constants per successfully compiled unit -/

/-- C6: a successfully compiled bytecode unit has at most 256 constants;
and when `emitConstant` computes a pool index above 255 outside panic
mode, it records the compile error `"Too many constants in one chunk."`
and sets the failure flag, so `compile` reports failure rather than
returning the unit. -/
theorem compile_constant_pool_bounded :
    (∀ (pre : Option VmToken × Option VmToken) (s : String) (chunk : Chunk),
      (Compiler.compile pre s).1 = some chunk → chunk.constants.length ≤ 256) ∧
    (∀ (st : CompilerState) (v : VmValue), st.panicMode = false →
      255 < (st.chunk.addConstant v).1 →
      (emitConstantC st v).hadError = true ∧
      (emitConstantC st v).errors = st.errors ++
        ["[line " ++ toString (getTok st.previous).line ++ "] Error: " ++
          "Too many constants in one chunk."]) := by
  constructor
  · intro pre s chunk hc
    have hinv0 : CInv (initComp pre s) := by
      constructor
      · intro h; cases h
      · intro _; simp [initComp, Chunk.empty]
    have h := (presR_compileWith pre s).1 hinv0
    unfold Compiler.compile at hc
    dsimp only [] at hc
    by_cases he : (compileWith pre s).hadError = true
    · rw [if_pos he] at hc; cases hc
    · rw [if_neg he] at hc
      rw [← Option.some.inj hc]
      exact h.2 (by rwa [Bool.not_eq_true] at he)
  · intro st v hp hidx
    have hidx2 : 255 < st.chunk.constants.length := hidx
    unfold emitConstantC
    simp only [Chunk.addConstant]
    rw [if_pos hidx2]
    unfold errorC errorAtC
    rw [if_neg (by simp [hp])]
    constructor
    · rfl
    · rfl

set_option maxRecDepth 40000 in
set_option maxHeartbeats 2000000 in
/-- Witness for C6: both conjuncts applied at concrete inputs — the
compile of `"1+2"` succeeds with a small pool, and `emitConstant` on a
state already holding 256 constants records the error. -/
theorem compile_constant_pool_bounded_witness :
    (((Compiler.compile (none, none) "1+2").1.getD Chunk.empty).constants.length ≤ 256) ∧
    ((emitConstantC ⟨[], ⟨[], 0, 0, 1⟩, none, none, false, false,
        ⟨[], List.replicate 256 (.vnum 0), []⟩, []⟩ (.vnum 0)).hadError = true) :=
  ⟨compile_constant_pool_bounded.1 (none, none) "1+2" _ (by decide),
   (compile_constant_pool_bounded.2
      ⟨[], ⟨[], 0, 0, 1⟩, none, none, false, false,
        ⟨[], List.replicate 256 (.vnum 0), []⟩, []⟩ (.vnum 0) rfl (by decide)).1⟩

/-! ## The open-addressing hash table (`src/vm/Table.ts`, step-18 document)

`Entry` references are modelled by slot indices into the entries array;
mutating the entry returned by `findEntry` becomes `List.set` at the
returned index, which is equivalent because every returned entry lives
in the array.  The unbounded probe loop is fuelled with `capacity`
probes, which suffices under the table's load invariant (proved below:
occupancy never exceeds 3/4 of capacity, the probe sequence visits every
slot once, and it stops at the first free slot). -/

/-- `Entry`: `key === null` marks a tombstone (`isDeleted`) or an empty
slot; `value` is `null` (`vnil`) for fresh empty entries. -/
structure TEntry where
  key : Option String
  value : VmValue
  isDeleted : Bool
deriving DecidableEq, Repr

/-- `Table`: entries array (a `none` slot is a `null` hole), live+tombstone
count, and capacity. -/
structure Table where
  entries : List (Option TEntry)
  count : Nat
  capacity : Nat
deriving DecidableEq, Repr

/-- `new Table()`. -/
def Table.new : Table := ⟨[], 0, 0⟩

/-- The UTF-16 code units of a string (JavaScript `charCodeAt`),
splitting astral code points into surrogate pairs. -/
def utf16CodeUnits (s : String) : List Nat :=
  s.data.flatMap fun c =>
    let v := c.toNat
    if v < 65536 then [v]
    else [55296 + (v - 65536) / 1024, 56320 + (v - 65536) % 1024]

/-- FNV-1a over the code units; `^` and `Math.imul`+`>>> 0` keep every
intermediate in 32 bits. -/
def fnv1a (s : String) : Nat :=
  (utf16CodeUnits s).foldl (fun h c => ((h ^^^ c) * 16777619) % 4294967296) 2166136261

/-- The probe loop of `Table.findEntry`: stop at a hole or an empty
entry (returning the first tombstone passed, if any, and materializing
an empty entry into a hole), pass tombstones and other keys, and return
a key match.  Returns the possibly-updated table and the index of the
returned entry; `none` means the fuel ran out (the JavaScript loop is
unbounded). -/
def Table.findEntryF (t : Table) (key : String) :
    Nat → Nat → Option Nat → Option (Table × Nat)
  | 0, _, _ => none
  | fuel + 1, index, tombstone =>
    match (t.entries[index]?).getD none with
    | none =>
      match tombstone with
      | some ti => some (t, ti)
      | none =>
        some ({ t with entries := t.entries.set index (some ⟨none, .vnil, false⟩) }, index)
    | some e =>
      if e.key = none ∧ e.isDeleted = false then
        match tombstone with
        | some ti => some (t, ti)
        | none => some (t, index)
      else if e.isDeleted then
        t.findEntryF key fuel ((index + 1) % t.capacity)
          (match tombstone with
           | some ti => some ti
           | none => some index)
      else if e.key = some key then some (t, index)
      else t.findEntryF key fuel ((index + 1) % t.capacity) tombstone

/-- `Table.findEntry`, fuelled with one probe per slot. -/
def Table.findEntry (t : Table) (key : String) : Option (Table × Nat) :=
  t.findEntryF key t.capacity (fnv1a key % t.capacity) none

/-- `Table.get`. -/
def Table.get (t : Table) (key : String) : Option (Option VmValue × Table) :=
  if t.capacity = 0 then some (none, t)
  else
    (t.findEntry key).map fun p =>
      match (p.1.entries[p.2]?).getD none with
      | none => (none, p.1)
      | some e => if e.key = none then (none, p.1) else (some e.value, p.1)

/-- The write-back of `Table.set` after `findEntry`: overwrite the
returned entry with the new key/value; a fresh (empty, non-tombstone)
slot increments `count`. -/
def Table.writeSlot (t2 : Table) (i : Nat) (key : String) (value : VmValue)
    (e : TEntry) : Table :=
  { t2 with
    entries := t2.entries.set i (some ⟨some key, value, false⟩),
    count := if e.key = none ∧ e.isDeleted = false then t2.count + 1 else t2.count }

/-- `isNewKey` plus the write, reading the entry `findEntry` returned. -/
def Table.writeEntry (t2 : Table) (i : Nat) (key : String) (value : VmValue) :
    Option (Bool × Table) :=
  match (t2.entries[i]?).getD none with
  | none => none
  | some e => some (e.key = none, Table.writeSlot t2 i key value e)

mutual

/-- `Table.set`: grow when the load factor would exceed `0.75`
(`count + 1 > capacity * 0.75`, exactly `4 * (count + 1) > 3 * capacity`
on these integers), then write the key into the slot `findEntry`
returns; a fresh (non-tombstone) slot increments `count`.  `gfuel`
bounds only the nested-growth depth of the `adjustCapacity`/`set`
recursion. -/
def Table.setF : Nat → Table → String → VmValue → Option (Bool × Table)
  | 0, _, _, _ => none
  | gfuel + 1, t, key, value =>
    match (if 4 * (t.count + 1) > 3 * t.capacity then
            Table.adjustCapacityF gfuel t (max 8 (t.capacity * 2))
          else some t) with
    | none => none
    | some t1 =>
      match t1.findEntry key with
      | none => none
      | some (t2, i) => Table.writeEntry t2 i key value

/-- `Table.adjustCapacity`: fresh null-filled storage of the new
capacity, zeroed count, then re-`set` every live entry of the old
storage in order. -/
def Table.adjustCapacityF : Nat → Table → Nat → Option Table
  | gfuel, t, newCapacity =>
    t.entries.foldl
      (fun acc oe =>
        match acc with
        | none => none
        | some tc =>
          match oe with
          | some e =>
            match e.key with
            | some k => (Table.setF gfuel tc k e.value).map Prod.snd
            | none => some tc
          | none => some tc)
      (some ⟨List.replicate newCapacity none, 0, newCapacity⟩)

end

/-- `Table.set` at the growth depth the load invariant guarantees: a
growing `set` re-inserts into a table whose load can never trigger a
second growth. -/
def Table.set (t : Table) (key : String) (value : VmValue) : Option (Bool × Table) :=
  Table.setF 2 t key value

/-- `Table.delete`: tombstone the found entry (`key := null`,
`isDeleted := true`), reporting whether the key existed. -/
def Table.delete (t : Table) (key : String) : Option (Bool × Table) :=
  if t.capacity = 0 then some (false, t)
  else
    (t.findEntry key).map fun p =>
      match (p.1.entries[p.2]?).getD none with
      | none => (false, p.1)
      | some e =>
        if e.key = none then (false, p.1)
        else (true, { p.1 with entries := p.1.entries.set p.2 (some ⟨none, e.value, true⟩) })

/-! ### Table invariant and probe-sequence facts -/

/-- The slot at index `i` as the probe loop reads it
(`entries[i] ?? null`). -/
def slotAt (t : Table) (i : Nat) : Option TEntry :=
  (t.entries[i]?).getD none

/-- A slot that does not stop a probe: it holds a live key or a
tombstone. -/
def occupiedB : Option TEntry → Bool
  | none => false
  | some e => e.key.isSome || e.isDeleted

/-- Slot `i` holds key `k` live. -/
def liveK (t : Table) (i : Nat) (k : String) : Prop :=
  ∃ e, slotAt t i = some e ∧ e.key = some k

/-- The probe index of key `k` at distance `d`. -/
def idxAt (t : Table) (k : String) (d : Nat) : Nat :=
  (fnv1a k % t.capacity + d) % t.capacity

/-- Key `k` can reach slot `i`: `i` lies on `k`'s probe sequence and
every earlier probe hits an occupied slot. -/
def PathTo (t : Table) (k : String) (i : Nat) : Prop :=
  ∃ d, d < t.capacity ∧ i = idxAt t k d ∧
    ∀ d' < d, occupiedB (slotAt t (idxAt t k d')) = true

/-- The table invariant: entries sized to capacity; `count` counts the
occupied slots; load at most 3/4; tombstones have no key; live keys are
unique; and every live key is reachable by probing. -/
def TInv (t : Table) : Prop :=
  t.entries.length = t.capacity ∧
  t.count = t.entries.countP occupiedB ∧
  (t.capacity = 0 ∨ 4 * t.count ≤ 3 * t.capacity) ∧
  (∀ i e, slotAt t i = some e → e.isDeleted = true → e.key = none) ∧
  (∀ k i j, liveK t i k → liveK t j k → i = j) ∧
  (∀ k i, liveK t i k → PathTo t k i)

theorem slotAt_some_lt {t : Table} {i : Nat} {e : TEntry} (h : slotAt t i = some e) :
    i < t.entries.length := by
  by_contra hge
  unfold slotAt at h
  rw [List.getElem?_eq_none (Nat.le_of_not_lt hge)] at h
  cases h

theorem idxAt_lt {t : Table} (k : String) (d : Nat) (hc : 0 < t.capacity) :
    idxAt t k d < t.capacity :=
  Nat.mod_lt _ hc

theorem idxAt_succ (t : Table) (k : String) (d : Nat) :
    (idxAt t k d + 1) % t.capacity = idxAt t k (d + 1) := by
  unfold idxAt
  have m1 : (fnv1a k % t.capacity + d) % t.capacity + 1 ≡
      fnv1a k % t.capacity + d + 1 [MOD t.capacity] :=
    Nat.ModEq.add_right 1 (Nat.mod_modEq _ _)
  exact m1

theorem idxAt_inj {t : Table} {k : String} {d d' : Nat} (hc : 0 < t.capacity)
    (h1 : d < t.capacity) (h2 : d' < t.capacity) (he : idxAt t k d = idxAt t k d') :
    d = d' := by
  unfold idxAt at he
  have hm : d ≡ d' [MOD t.capacity] :=
    (Nat.ModEq.refl (fnv1a k % t.capacity)).add_left_cancel he
  have hm2 : d % t.capacity = d' % t.capacity := hm
  rwa [Nat.mod_eq_of_lt h1, Nat.mod_eq_of_lt h2] at hm2

theorem exists_idxAt {t : Table} (k : String) {j : Nat} (hc : 0 < t.capacity)
    (hj : j < t.capacity) : ∃ d < t.capacity, idxAt t k d = j := by
  refine ⟨(t.capacity + j - fnv1a k % t.capacity) % t.capacity, Nat.mod_lt _ hc, ?_⟩
  unfold idxAt
  have hh : fnv1a k % t.capacity < t.capacity := Nat.mod_lt _ hc
  have m1 : fnv1a k % t.capacity + (t.capacity + j - fnv1a k % t.capacity) % t.capacity ≡
      fnv1a k % t.capacity + (t.capacity + j - fnv1a k % t.capacity) [MOD t.capacity] :=
    Nat.ModEq.add_left _ (Nat.mod_modEq _ _)
  have m2 : (fnv1a k % t.capacity + (t.capacity + j - fnv1a k % t.capacity) % t.capacity) %
      t.capacity = (fnv1a k % t.capacity + (t.capacity + j - fnv1a k % t.capacity)) %
      t.capacity := m1
  rw [m2, Nat.add_sub_cancel' (Nat.le_trans (Nat.le_of_lt hh) (Nat.le_add_right _ _)),
    Nat.add_mod_left, Nat.mod_eq_of_lt hj]

/-- Relation between a table and the result of a probe that at most
materialized empty entries into holes: nothing observable changes. -/
def SameShape (t t' : Table) : Prop :=
  t'.count = t.count ∧ t'.capacity = t.capacity ∧ t'.entries.length = t.entries.length ∧
  ∀ j, slotAt t' j = slotAt t j ∨
    (slotAt t j = none ∧ slotAt t' j = some ⟨none, .vnil, false⟩)

theorem SameShape.refl (t : Table) : SameShape t t :=
  ⟨rfl, rfl, rfl, fun _ => Or.inl rfl⟩

theorem SameShape.occupied {t t' : Table} (h : SameShape t t') (j : Nat) :
    occupiedB (slotAt t' j) = occupiedB (slotAt t j) := by
  rcases h.2.2.2 j with he | ⟨h1, h2⟩
  · rw [he]
  · rw [h1, h2]; rfl

theorem SameShape.liveK_iff {t t' : Table} (h : SameShape t t') (j : Nat) (k : String) :
    liveK t' j k ↔ liveK t j k := by
  rcases h.2.2.2 j with he | ⟨h1, h2⟩
  · unfold liveK; rw [he]
  · unfold liveK; rw [h1, h2]
    constructor
    · rintro ⟨e, he, hk⟩
      cases he; cases hk
    · rintro ⟨e, he, -⟩
      cases he

theorem countP_getD_congr :
    ∀ (l l' : List (Option TEntry)), l'.length = l.length →
    (∀ j : Nat, occupiedB ((l'[j]?).getD none) = occupiedB ((l[j]?).getD none)) →
    l'.countP occupiedB = l.countP occupiedB := by
  intro l
  induction l with
  | nil =>
    intro l' hlen _
    rw [List.length_nil] at hlen
    rw [List.length_eq_zero.mp hlen]
  | cons a as ih =>
    intro l' hlen hptw
    match l' with
    | [] => simp at hlen
    | b :: bs =>
      have h0 := hptw 0
      simp only [List.getElem?_cons_zero, Option.getD_some] at h0
      have htail : bs.countP occupiedB = as.countP occupiedB := by
        refine ih bs (by simpa using hlen) ?_
        intro j
        have := hptw (j + 1)
        simpa using this
      simp only [List.countP_cons, h0, htail]

theorem SameShape.tinv {t t' : Table} (hI : TInv t) (h : SameShape t t') : TInv t' := by
  obtain ⟨hcnt, hcap, hlen, hsl⟩ := h
  obtain ⟨i1, i2, i3, i4, i5, i6⟩ := hI
  have hocc : ∀ j, occupiedB (slotAt t' j) = occupiedB (slotAt t j) :=
    SameShape.occupied ⟨hcnt, hcap, hlen, hsl⟩
  have hlive : ∀ j k, liveK t' j k ↔ liveK t j k :=
    fun j k => SameShape.liveK_iff ⟨hcnt, hcap, hlen, hsl⟩ j k
  refine ⟨by rw [hlen, hcap, i1], ?_, ?_, ?_, ?_, ?_⟩
  · rw [hcnt, hcap] at *
    rw [i2]
    exact (countP_getD_congr t.entries t'.entries hlen hocc).symm ▸ i2 ▸ rfl
  · rw [hcnt, hcap]; exact i3
  · intro i e he hd
    rcases hsl i with hs | ⟨h1, h2⟩
    · exact i4 i e (hs ▸ he) hd
    · rw [h2] at he
      cases he
      cases hd
  · intro k i j hi hj
    exact i5 k i j ((hlive i k).mp hi) ((hlive j k).mp hj)
  · intro k i hi
    obtain ⟨d, hd, hid, hocc'⟩ := i6 k i ((hlive i k).mp hi)
    refine ⟨d, by rw [hcap]; exact hd, ?_, ?_⟩
    · rw [hid]; unfold idxAt; rw [hcap]
    · intro d' hd'
      have := hocc' d' hd'
      unfold idxAt
      rw [hcap]
      rw [hocc]
      exact this

theorem not_all_occupied {t : Table} (hI : TInv t) (hc : 0 < t.capacity) :
    ∃ s, s < t.capacity ∧ occupiedB (slotAt t s) = false := by
  by_contra hno
  push_neg at hno
  have hall : ∀ oe ∈ t.entries, occupiedB oe = true := by
    intro oe hmem
    obtain ⟨i, hi, hoe⟩ := List.getElem_of_mem hmem
    have hi' : i < t.capacity := hI.1 ▸ hi
    have hne := hno i hi'
    have hbt : occupiedB (slotAt t i) = true := by
      revert hne; cases occupiedB (slotAt t i) <;> simp
    unfold slotAt at hbt
    rw [List.getElem?_eq_getElem hi, Option.getD_some, hoe] at hbt
    exact hbt
  have hcnt : t.entries.countP occupiedB = t.entries.length :=
    List.countP_eq_length.mpr hall
  rcases hI.2.2.1 with h0 | hload
  · omega
  · have h1 := hI.1
    have h2 := hI.2.1
    omega

theorem countP_set :
    ∀ (l : List (Option TEntry)) (i : Nat) (a : Option TEntry), i < l.length →
    (l.set i a).countP occupiedB + (if occupiedB ((l[i]?).getD none) then 1 else 0) =
      l.countP occupiedB + (if occupiedB a then 1 else 0) := by
  intro l
  induction l with
  | nil => intro i a h; simp at h
  | cons b bs ih =>
    intro i a h
    match i with
    | 0 => simp [List.countP_cons]; omega
    | i + 1 =>
      have hlt : i < bs.length := by simpa using h
      have := ih i a hlt
      simp only [List.set_cons_succ, List.countP_cons, List.getElem?_cons_succ]
      omega


theorem findEntryF_succ_none {t : Table} {k : String} {fuel index : Nat} {tomb : Option Nat}
    (h : slotAt t index = none) :
    t.findEntryF k (fuel + 1) index tomb =
      match tomb with
      | some ti => some (t, ti)
      | none => some ({t with entries := t.entries.set index (some ⟨none, .vnil, false⟩)},
          index) := by
  simp only [Table.findEntryF]
  rw [show (t.entries[index]?).getD none = slotAt t index from rfl, h]

theorem findEntryF_succ_some {t : Table} {k : String} {fuel index : Nat} {tomb : Option Nat}
    {e : TEntry} (h : slotAt t index = some e) :
    t.findEntryF k (fuel + 1) index tomb =
      (if e.key = none ∧ e.isDeleted = false then
        (match tomb with | some ti => some (t, ti) | none => some (t, index))
      else if e.isDeleted then
        t.findEntryF k fuel ((index + 1) % t.capacity)
          (match tomb with | some ti => some ti | none => some index)
      else if e.key = some k then some (t, index)
      else t.findEntryF k fuel ((index + 1) % t.capacity) tomb) := by
  simp only [Table.findEntryF]
  rw [show (t.entries[index]?).getD none = slotAt t index from rfl, h]

theorem findEntryF_go (t : Table) (k : String) (hI : TInv t) (hc : 0 < t.capacity) :
    ∀ (fuel d₀ : Nat) (tomb : Option Nat),
      t.capacity ≤ d₀ + fuel →
      (∀ d', d' < d₀ → occupiedB (slotAt t (idxAt t k d')) = true ∧
        ¬ liveK t (idxAt t k d') k) →
      (tomb = none ∨ ∃ dt, dt < d₀ ∧ tomb = some (idxAt t k dt) ∧
        ∃ e, slotAt t (idxAt t k dt) = some e ∧ e.isDeleted = true) →
      ∃ t' i, t.findEntryF k fuel (idxAt t k d₀) tomb = some (t', i) ∧
        SameShape t t' ∧ i < t.capacity ∧
        ((∃ e, slotAt t i = some e ∧ e.key = some k ∧ t' = t) ∨
         ((∀ j, ¬ liveK t j k) ∧ (∃ e, slotAt t' i = some e ∧ e.key = none) ∧
           PathTo t' k i)) := by
  intro fuel
  induction fuel with
  | zero =>
    intro d₀ tomb hfuel hA htomb
    exfalso
    obtain ⟨s, hs, hsocc⟩ := not_all_occupied hI hc
    obtain ⟨d, hd, hde⟩ := exists_idxAt k hc hs
    have hocc := (hA d (by omega)).1
    rw [hde] at hocc
    rw [hocc] at hsocc
    cases hsocc
  | succ fuel ih =>
    intro d₀ tomb hfuel hA htomb
    by_cases hd₀ : d₀ < t.capacity
    swap
    · exfalso
      obtain ⟨s, hs, hsocc⟩ := not_all_occupied hI hc
      obtain ⟨d, hd, hde⟩ := exists_idxAt k hc hs
      have hocc := (hA d (by omega)).1
      rw [hde] at hocc
      rw [hocc] at hsocc
      cases hsocc
    have hi₀lt : idxAt t k d₀ < t.capacity := idxAt_lt k d₀ hc
    have hi₀len : idxAt t k d₀ < t.entries.length := hI.1 ▸ hi₀lt
    have hnolive : occupiedB (slotAt t (idxAt t k d₀)) = false → ∀ j, ¬ liveK t j k := by
      intro hoccf j hlive
      obtain ⟨d, hd, hid, hpre⟩ := hI.2.2.2.2.2 k j hlive
      rcases Nat.lt_trichotomy d d₀ with hlt | heq | hgt
      · exact (hA d hlt).2 (hid ▸ hlive)
      · subst heq
        obtain ⟨e, hsl, hk⟩ := hid ▸ hlive
        rw [hsl] at hoccf
        simp [occupiedB, hk] at hoccf
      · have hde := hpre d₀ hgt
        rw [hde] at hoccf
        cases hoccf
    rcases hslot : slotAt t (idxAt t k d₀) with _ | e
    · -- a hole stops the probe
      rw [findEntryF_succ_none hslot]
      have hnl := hnolive (by rw [hslot]; rfl)
      rcases htomb with htombn | ⟨dt, hdt, htombe, et, hslott, hdelt⟩
      · subst htombn
        refine ⟨_, idxAt t k d₀, rfl, ?_, hi₀lt, Or.inr ⟨hnl, ?_, ?_⟩⟩
        · refine ⟨rfl, rfl, by simp, ?_⟩
          intro j
          by_cases hj : idxAt t k d₀ = j
          · subst hj
            refine Or.inr ⟨hslot, ?_⟩
            unfold slotAt
            rw [List.getElem?_set_eq hi₀len]
            rfl
          · left
            unfold slotAt
            rw [List.getElem?_set_ne hj]
        · refine ⟨⟨none, .vnil, false⟩, ?_, rfl⟩
          unfold slotAt
          rw [List.getElem?_set_eq hi₀len]
          rfl
        · refine ⟨d₀, hd₀, rfl, ?_⟩
          intro d' hd'
          have hne : idxAt t k d₀ ≠ idxAt t k d' := by
            intro he
            exact absurd (idxAt_inj hc hd₀ (by omega) he) (by omega)
          have hsl : slotAt { t with entries := t.entries.set (idxAt t k d₀) (some ⟨none, .vnil, false⟩) } (idxAt t k d') = slotAt t (idxAt t k d') := by
            unfold slotAt
            exact congrArg (Option.getD · none) (List.getElem?_set_ne hne)
          have hidx : idxAt { t with entries := t.entries.set (idxAt t k d₀) (some ⟨none, .vnil, false⟩) } k d' = idxAt t k d' := rfl
          rw [hidx, hsl]
          exact (hA d' (by omega)).1
      · subst htombe
        refine ⟨t, idxAt t k dt, rfl, SameShape.refl t, idxAt_lt k dt hc,
          Or.inr ⟨hnl, ⟨et, hslott, hI.2.2.2.1 _ _ hslott hdelt⟩, ?_⟩⟩
        exact ⟨dt, by omega, rfl, fun d' hd' => (hA d' (by omega)).1⟩
    · -- slot holds an entry: stop, skip a tombstone, match, or probe on
      rw [findEntryF_succ_some hslot]
      by_cases hstop : e.key = none ∧ e.isDeleted = false
      · rw [if_pos hstop]
        have hoccf : occupiedB (slotAt t (idxAt t k d₀)) = false := by
          rw [hslot]
          simp [occupiedB, hstop.1, hstop.2]
        have hnl := hnolive hoccf
        rcases htomb with htombn | ⟨dt, hdt, htombe, et, hslott, hdelt⟩
        · subst htombn
          exact ⟨t, idxAt t k d₀, rfl, SameShape.refl t, hi₀lt,
            Or.inr ⟨hnl, ⟨e, hslot, hstop.1⟩,
              ⟨d₀, hd₀, rfl, fun d' hd' => (hA d' (by omega)).1⟩⟩⟩
        · subst htombe
          exact ⟨t, idxAt t k dt, rfl, SameShape.refl t, idxAt_lt k dt hc,
            Or.inr ⟨hnl, ⟨et, hslott, hI.2.2.2.1 _ _ hslott hdelt⟩,
              ⟨dt, by omega, rfl, fun d' hd' => (hA d' (by omega)).1⟩⟩⟩
      · rw [if_neg hstop]
        by_cases hdel : e.isDeleted = true
        · rw [if_pos hdel, idxAt_succ]
          have hA' : ∀ d', d' < d₀ + 1 → occupiedB (slotAt t (idxAt t k d')) = true ∧
              ¬ liveK t (idxAt t k d') k := by
            intro d' hd'
            rcases Nat.lt_or_ge d' d₀ with hlt | hge
            · exact hA d' hlt
            · have hde : d' = d₀ := by omega
              subst hde
              refine ⟨by rw [hslot]; simp [occupiedB, hdel], ?_⟩
              rintro ⟨e', he', hk'⟩
              rw [hslot] at he'
              cases he'
              have hkn := hI.2.2.2.1 _ _ hslot hdel
              rw [hkn] at hk'
              cases hk'
          rcases tomb with _ | ti
          · exact ih (d₀ + 1) (some (idxAt t k d₀)) (by omega) hA'
              (Or.inr ⟨d₀, by omega, rfl, e, hslot, hdel⟩)
          · rcases htomb with h | ⟨dt, hdt, htombe, et, hslott, hdelt⟩
            · cases h
            · exact ih (d₀ + 1) (some ti) (by omega) hA'
                (Or.inr ⟨dt, by omega, htombe, et, hslott, hdelt⟩)
        · rw [if_neg hdel]
          by_cases hmatch : e.key = some k
          · rw [if_pos hmatch]
            exact ⟨t, idxAt t k d₀, rfl, SameShape.refl t, hi₀lt,
              Or.inl ⟨e, hslot, hmatch, rfl⟩⟩
          · rw [if_neg hmatch, idxAt_succ]
            refine ih (d₀ + 1) tomb (by omega) ?_ ?_
            · intro d' hd'
              rcases Nat.lt_or_ge d' d₀ with hlt | hge
              · exact hA d' hlt
              · have hde : d' = d₀ := by omega
                subst hde
                constructor
                · rw [hslot]
                  simp only [occupiedB]
                  rcases hek : e.key with _ | k'
                  · exact absurd ⟨hek, by revert hdel; cases e.isDeleted <;> simp⟩ hstop
                  · simp
                · rintro ⟨e', he', hk'⟩
                  rw [hslot] at he'
                  cases he'
                  exact hmatch hk'
            · rcases htomb with h | ⟨dt, hdt, htombe, et, hslott, hdelt⟩
              · exact Or.inl h
              · exact Or.inr ⟨dt, by omega, htombe, et, hslott, hdelt⟩

/-- The table maps `k` to `v`: some slot holds `k` live with value `v`. -/
def LiveVal (t : Table) (k : String) (v : VmValue) : Prop :=
  ∃ i e, slotAt t i = some e ∧ e.key = some k ∧ e.value = v

theorem tinv_load {t : Table} (hI : TInv t) : 4 * t.count ≤ 3 * t.capacity := by
  rcases hI.2.2.1 with h0 | h
  · have h1 := hI.1
    have h2 := hI.2.1
    rw [h0] at h1
    rw [List.length_eq_zero.mp h1] at h2
    simp [List.countP_nil] at h2
    omega
  · exact h

theorem PathTo_mono {t t' : Table} (hcap : t'.capacity = t.capacity)
    (hocc : ∀ j, occupiedB (slotAt t j) = true → occupiedB (slotAt t' j) = true)
    {k : String} {i : Nat} (h : PathTo t k i) : PathTo t' k i := by
  obtain ⟨d, hd, hid, hpre⟩ := h
  have hidx : ∀ d', idxAt t' k d' = idxAt t k d' := by
    intro d'
    unfold idxAt
    rw [hcap]
  exact ⟨d, by rw [hcap]; exact hd, by rw [hidx]; exact hid,
    fun d' hd' => by rw [hidx]; exact hocc _ (hpre d' hd')⟩

theorem SameShape.liveVal_iff {t t' : Table} (h : SameShape t t') (k : String) (v : VmValue) :
    LiveVal t' k v ↔ LiveVal t k v := by
  constructor
  · rintro ⟨i, e, he, hk, hv⟩
    rcases h.2.2.2 i with hs | ⟨h1, h2⟩
    · exact ⟨i, e, hs ▸ he, hk, hv⟩
    · rw [h2] at he
      cases he
      cases hk
  · rintro ⟨i, e, he, hk, hv⟩
    rcases h.2.2.2 i with hs | ⟨h1, h2⟩
    · exact ⟨i, e, hs ▸ he, hk, hv⟩
    · rw [h1] at he
      cases he

theorem findEntry_spec {t : Table} (k : String) (hI : TInv t) (hc : 0 < t.capacity) :
    ∃ t' i, t.findEntry k = some (t', i) ∧ SameShape t t' ∧ i < t.capacity ∧
      ((∃ e, slotAt t i = some e ∧ e.key = some k ∧ t' = t) ∨
       ((∀ j, ¬ liveK t j k) ∧ (∃ e, slotAt t' i = some e ∧ e.key = none) ∧
         PathTo t' k i)) := by
  unfold Table.findEntry
  rw [show fnv1a k % t.capacity = idxAt t k 0 from by
    unfold idxAt
    rw [Nat.add_zero, Nat.mod_mod_of_dvd _ dvd_rfl]]
  exact findEntryF_go t k hI hc t.capacity 0 none (by omega)
    (fun d' hd' => absurd hd' (Nat.not_lt_zero d')) (Or.inl rfl)

theorem writeSlot_spec {t2 : Table} {i : Nat} {k : String} {v : VmValue} {e : TEntry}
    (hI : TInv t2) (hilen : i < t2.entries.length) (hslot : slotAt t2 i = some e)
    (hkey : e.key = some k ∨ (e.key = none ∧ (∀ j, ¬ liveK t2 j k) ∧ PathTo t2 k i))
    (hload : 4 * (t2.count + 1) ≤ 3 * t2.capacity) :
    TInv (Table.writeSlot t2 i k v e) ∧
    (Table.writeSlot t2 i k v e).capacity = t2.capacity ∧
    (Table.writeSlot t2 i k v e).count ≤ t2.count + 1 ∧
    (∀ k' v', LiveVal (Table.writeSlot t2 i k v e) k' v' ↔
      (k' = k ∧ v' = v ∨ k' ≠ k ∧ LiveVal t2 k' v')) := by
  have hWcap : (Table.writeSlot t2 i k v e).capacity = t2.capacity := rfl
  have hWlen : (Table.writeSlot t2 i k v e).entries.length = t2.entries.length := by
    simp [Table.writeSlot]
  have hself : slotAt (Table.writeSlot t2 i k v e) i = some ⟨some k, v, false⟩ := by
    simp only [slotAt, Table.writeSlot]
    rw [List.getElem?_set_eq hilen]
    rfl
  have hother : ∀ j, i ≠ j → slotAt (Table.writeSlot t2 i k v e) j = slotAt t2 j := by
    intro j hj
    simp only [slotAt, Table.writeSlot]
    rw [List.getElem?_set_ne hj]
  have hoccW : ∀ j, occupiedB (slotAt t2 j) = true →
      occupiedB (slotAt (Table.writeSlot t2 i k v e) j) = true := by
    intro j hj
    by_cases hij : i = j
    · subst hij
      rw [hself]
      rfl
    · rw [hother j hij]
      exact hj
  have hlk : ∀ j k', liveK (Table.writeSlot t2 i k v e) j k' ↔
      (j = i ∧ k' = k) ∨ (j ≠ i ∧ liveK t2 j k') := by
    intro j k'
    constructor
    · rintro ⟨e', he', hk'⟩
      by_cases hij : i = j
      · subst hij
        rw [hself] at he'
        injection he' with he2
        subst he2
        injection hk' with hk2
        subst hk2
        exact Or.inl ⟨rfl, rfl⟩
      · rw [hother j hij] at he'
        exact Or.inr ⟨fun h => hij h.symm, ⟨e', he', hk'⟩⟩
    · rintro (⟨hji, hkk⟩ | ⟨hne, e', he', hk'⟩)
      · subst hji
        rw [hkk]
        exact ⟨⟨some k, v, false⟩, hself, rfl⟩
      · have hij : i ≠ j := fun h => hne h.symm
        rw [← hother j hij] at he'
        exact ⟨e', he', hk'⟩
  have hcntle : (Table.writeSlot t2 i k v e).count ≤ t2.count + 1 := by
    simp only [Table.writeSlot]
    split <;> omega
  have h21 := hI.2.1
  have hcountP : (t2.entries.set i (some ⟨some k, v, false⟩)).countP occupiedB +
      (if occupiedB (some e) then 1 else 0) = t2.entries.countP occupiedB + 1 := by
    have hcp := countP_set t2.entries i (some ⟨some k, v, false⟩) hilen
    rw [show (t2.entries[i]?).getD none = slotAt t2 i from rfl, hslot] at hcp
    simpa [occupiedB] using hcp
  have hcount2 : (if e.key = none ∧ e.isDeleted = false then t2.count + 1 else t2.count) =
      (t2.entries.set i (some ⟨some k, v, false⟩)).countP occupiedB := by
    rcases hkey with hk | ⟨hk, -, -⟩
    · rw [if_neg (by simp [hk])]
      have hocc : occupiedB (some e) = true := by simp [occupiedB, hk]
      rw [hocc] at hcountP
      simp at hcountP
      omega
    · by_cases hd : e.isDeleted = true
      · rw [if_neg (by simp [hd])]
        have hocc : occupiedB (some e) = true := by simp [occupiedB, hd]
        rw [hocc] at hcountP
        simp at hcountP
        omega
      · have hd' : e.isDeleted = false := by revert hd; cases e.isDeleted <;> simp
        rw [if_pos ⟨hk, hd'⟩]
        have hocc : occupiedB (some e) = false := by simp [occupiedB, hk, hd']
        rw [hocc] at hcountP
        simp at hcountP
        omega
  refine ⟨⟨?_, ?_, ?_, ?_, ?_, ?_⟩, hWcap, hcntle, ?_⟩
  · rw [hWlen, hWcap]
    exact hI.1
  · simp only [Table.writeSlot]
    exact hcount2
  · right
    rw [hWcap]
    omega
  · intro j e' he' hd
    by_cases hij : i = j
    · subst hij
      rw [hself] at he'
      injection he' with he2
      subst he2
      cases hd
    · rw [hother j hij] at he'
      exact hI.2.2.2.1 j e' he' hd
  · intro k₀ j j' hj hj'
    rw [hlk] at hj hj'
    rcases hj with ⟨hji, hk₀⟩ | ⟨hne, hlv⟩ <;>
      rcases hj' with ⟨hji', hk₀'⟩ | ⟨hne', hlv'⟩
    · rw [hji, hji']
    · rw [hk₀] at hlv'
      rw [hji]
      rcases hkey with hkf | ⟨-, hnl, -⟩
      · exact (hI.2.2.2.2.1 k j' i hlv' ⟨e, hslot, hkf⟩).symm
      · exact absurd hlv' (hnl j')
    · rw [hk₀'] at hlv
      rw [hji']
      rcases hkey with hkf | ⟨-, hnl, -⟩
      · exact hI.2.2.2.2.1 k j i hlv ⟨e, hslot, hkf⟩
      · exact absurd hlv (hnl j)
    · exact hI.2.2.2.2.1 k₀ j j' hlv hlv'
  · intro k₀ j hj
    rw [hlk] at hj
    rcases hj with ⟨hji, hk₀⟩ | ⟨hne, hlv⟩
    · rw [hji, hk₀]
      rcases hkey with hkf | ⟨-, -, hPath⟩
      · exact PathTo_mono hWcap hoccW (hI.2.2.2.2.2 k i ⟨e, hslot, hkf⟩)
      · exact PathTo_mono hWcap hoccW hPath
    · exact PathTo_mono hWcap hoccW (hI.2.2.2.2.2 k₀ j hlv)
  · intro k' v'
    constructor
    · rintro ⟨j, e', he', hk', hv'⟩
      by_cases hij : i = j
      · subst hij
        rw [hself] at he'
        injection he' with he2
        subst he2
        injection hk' with hk2
        exact Or.inl ⟨hk2.symm, hv'.symm⟩
      · rw [hother j hij] at he'
        refine Or.inr ⟨?_, j, e', he', hk', hv'⟩
        intro hkk
        rcases hkey with hkf | ⟨-, hnl, -⟩
        · rw [← hkk] at hkf
          exact hij (hI.2.2.2.2.1 k' i j ⟨e, hslot, hkf⟩ ⟨e', he', hk'⟩)
        · rw [hkk] at hk'
          exact hnl j ⟨e', he', hk'⟩
    · rintro (⟨hk', hv'⟩ | ⟨hne, j, e', he', hk', hv'⟩)
      · rw [hk', hv']
        exact ⟨i, ⟨some k, v, false⟩, hself, rfl, rfl⟩
      · have hij : i ≠ j := by
          intro h
          subst h
          rw [hslot] at he'
          injection he' with he2
          subst he2
          rcases hkey with hkf | ⟨hkn, -, -⟩
          · rw [hkf] at hk'
            injection hk' with hk2
            exact hne hk2.symm
          · rw [hkn] at hk'
            cases hk'
        rw [← hother j hij] at he'
        exact ⟨j, e', he', hk', hv'⟩

theorem writeEntry_spec {t1 : Table} (k : String) (v : VmValue) (hI : TInv t1)
    (hc : 0 < t1.capacity) (hload : 4 * (t1.count + 1) ≤ 3 * t1.capacity) :
    ∃ b t', (match t1.findEntry k with
             | none => none
             | some (t2, i) => Table.writeEntry t2 i k v) = some (b, t') ∧
      TInv t' ∧ t'.capacity = t1.capacity ∧ t'.count ≤ t1.count + 1 ∧
      (∀ k' v', LiveVal t' k' v' ↔ (k' = k ∧ v' = v ∨ k' ≠ k ∧ LiveVal t1 k' v')) := by
  obtain ⟨t2, i, hfind, hshape, hilt, hpost⟩ := findEntry_spec k hI hc
  rw [hfind]
  rcases hpost with ⟨e, hslot, hkf, ht2⟩ | ⟨hnl, ⟨e, hslot2, hkn⟩, hpath⟩
  · subst ht2
    have hilen : i < t2.entries.length := hI.1 ▸ hilt
    have hw : Table.writeEntry t2 i k v =
        some (decide (e.key = none), Table.writeSlot t2 i k v e) := by
      simp only [Table.writeEntry]
      rw [show (t2.entries[i]?).getD none = slotAt t2 i from rfl, hslot]
    obtain ⟨hT, hcap, hcnt, hlv⟩ := writeSlot_spec hI hilen hslot (Or.inl hkf) hload
    exact ⟨_, _, hw, hT, hcap, hcnt, hlv⟩
  · have hI2 : TInv t2 := SameShape.tinv hI hshape
    have hcap2 : t2.capacity = t1.capacity := hshape.2.1
    have hcnt2 : t2.count = t1.count := hshape.1
    have hilen : i < t2.entries.length := by rw [hI2.1, hcap2]; exact hilt
    have hload2 : 4 * (t2.count + 1) ≤ 3 * t2.capacity := by rw [hcnt2, hcap2]; omega
    have hnl2 : ∀ j, ¬ liveK t2 j k := fun j h => hnl j ((hshape.liveK_iff j k).mp h)
    have hw : Table.writeEntry t2 i k v =
        some (decide (e.key = none), Table.writeSlot t2 i k v e) := by
      simp only [Table.writeEntry]
      rw [show (t2.entries[i]?).getD none = slotAt t2 i from rfl, hslot2]
    obtain ⟨hT, hcap, hcnt, hlv⟩ :=
      writeSlot_spec hI2 hilen hslot2 (Or.inr ⟨hkn, hnl2, hpath⟩) hload2
    refine ⟨_, _, hw, hT, by rw [hcap, hcap2], ?_, ?_⟩
    · rw [hcnt2] at hcnt
      exact hcnt
    · intro k' v'
      rw [hlv k' v', hshape.liveVal_iff k' v']

theorem setF_eq_of_no_grow {g : Nat} {t : Table} {k : String} {v : VmValue}
    (h : ¬ 4 * (t.count + 1) > 3 * t.capacity) :
    Table.setF (g + 1) t k v =
      match t.findEntry k with
      | none => none
      | some (t2, i) => Table.writeEntry t2 i k v := by
  simp only [Table.setF]
  rw [if_neg h]

theorem setF_eq_of_grow {g : Nat} {t : Table} {k : String} {v : VmValue}
    (h : 4 * (t.count + 1) > 3 * t.capacity) :
    Table.setF (g + 1) t k v =
      match Table.adjustCapacityF g t (max 8 (t.capacity * 2)) with
      | none => none
      | some t1 =>
        match t1.findEntry k with
        | none => none
        | some (t2, i) => Table.writeEntry t2 i k v := by
  simp only [Table.setF]
  rw [if_pos h]

theorem setF_spec_no_grow {t : Table} (k : String) (v : VmValue) (g : Nat) (hI : TInv t)
    (hload : 4 * (t.count + 1) ≤ 3 * t.capacity) :
    ∃ b t', Table.setF (g + 1) t k v = some (b, t') ∧ TInv t' ∧
      t'.capacity = t.capacity ∧ t'.count ≤ t.count + 1 ∧
      (∀ k' v', LiveVal t' k' v' ↔ (k' = k ∧ v' = v ∨ k' ≠ k ∧ LiveVal t k' v')) := by
  have hc : 0 < t.capacity := by omega
  obtain ⟨b, t', hw, rest⟩ := writeEntry_spec k v hI hc hload
  exact ⟨b, t', by rw [setF_eq_of_no_grow (by omega)]; exact hw, rest⟩

/-- The live key/value pairs of an entries array, in slot order. -/
def liveAssoc (l : List (Option TEntry)) : List (String × VmValue) :=
  l.flatMap fun oe =>
    match oe with
    | some e => match e.key with | some k => [(k, e.value)] | none => []
    | none => []

theorem liveAssoc_mem_iff : ∀ (l : List (Option TEntry)) (k : String) (v : VmValue),
    (k, v) ∈ liveAssoc l ↔
      ∃ (j : Nat) (e : TEntry), ((l[j]?).getD none) = some e ∧ e.key = some k ∧
        e.value = v := by
  intro l
  induction l with
  | nil =>
    intro k v
    simp [liveAssoc]
  | cons oe l' ih =>
    intro k v
    rcases oe with _ | e0
    · rw [show liveAssoc (none :: l') = liveAssoc l' from by simp [liveAssoc], ih k v]
      constructor
      · rintro ⟨j, e, he, hk, hv⟩
        exact ⟨j + 1, e, by simpa using he, hk, hv⟩
      · rintro ⟨j, e, he, hk, hv⟩
        rcases j with _ | j
        · simp at he
        · exact ⟨j, e, by simpa using he, hk, hv⟩
    · rcases hk0 : e0.key with _ | k0
      · rw [show liveAssoc (some e0 :: l') = liveAssoc l' from by simp [liveAssoc, hk0],
          ih k v]
        constructor
        · rintro ⟨j, e, he, hk, hv⟩
          exact ⟨j + 1, e, by simpa using he, hk, hv⟩
        · rintro ⟨j, e, he, hk, hv⟩
          rcases j with _ | j
          · simp at he
            rw [← he, hk0] at hk
            cases hk
          · exact ⟨j, e, by simpa using he, hk, hv⟩
      · rw [show liveAssoc (some e0 :: l') = (k0, e0.value) :: liveAssoc l' from by
          simp [liveAssoc, hk0]]
        constructor
        · intro hm
          rcases List.mem_cons.mp hm with heq | ht
          · refine ⟨0, e0, by simp, ?_, (congrArg Prod.snd heq).symm⟩
            rw [hk0, show k = k0 from congrArg Prod.fst heq]
          · obtain ⟨j, e, he, hk, hv⟩ := (ih k v).mp ht
            exact ⟨j + 1, e, by simpa using he, hk, hv⟩
        · rintro ⟨j, e, he, hk, hv⟩
          rcases j with _ | j
          · simp at he
            rw [← he] at hk hv
            rw [hk0] at hk
            injection hk with hkk
            exact List.mem_cons.mpr (Or.inl (by rw [← hkk, ← hv]))
          · exact List.mem_cons.mpr
              (Or.inr ((ih k v).mpr ⟨j, e, by simpa using he, hk, hv⟩))

theorem liveAssoc_pairwise : ∀ (l : List (Option TEntry)),
    (∀ (k : String) (j j' : Nat),
        (∃ e, ((l[j]?).getD none) = some e ∧ e.key = some k) →
        (∃ e, ((l[j']?).getD none) = some e ∧ e.key = some k) → j = j') →
    (liveAssoc l).Pairwise (fun a b => a.1 ≠ b.1) := by
  intro l
  induction l with
  | nil => intro _; simp [liveAssoc]
  | cons oe l' ih =>
    intro huniq
    have huniq' : ∀ (k : String) (j j' : Nat),
        (∃ e, ((l'[j]?).getD none) = some e ∧ e.key = some k) →
        (∃ e, ((l'[j']?).getD none) = some e ∧ e.key = some k) → j = j' := by
      intro k j j' h1 h2
      obtain ⟨e1, he1, hk1⟩ := h1
      obtain ⟨e2, he2, hk2⟩ := h2
      have := huniq k (j + 1) (j' + 1) ⟨e1, by simpa using he1, hk1⟩
        ⟨e2, by simpa using he2, hk2⟩
      omega
    rcases oe with _ | e0
    · rw [show liveAssoc (none :: l') = liveAssoc l' from by simp [liveAssoc]]
      exact ih huniq'
    · rcases hk0 : e0.key with _ | k0
      · rw [show liveAssoc (some e0 :: l') = liveAssoc l' from by simp [liveAssoc, hk0]]
        exact ih huniq'
      · rw [show liveAssoc (some e0 :: l') = (k0, e0.value) :: liveAssoc l' from by
          simp [liveAssoc, hk0]]
        refine List.pairwise_cons.mpr ⟨?_, ih huniq'⟩
        rintro ⟨ak, av⟩ ha heq
        obtain ⟨j, e, he, hk, hv⟩ := (liveAssoc_mem_iff l' ak av).mp ha
        have h0 : ∃ e, (((some e0 :: l')[0]?).getD none) = some e ∧ e.key = some k0 :=
          ⟨e0, by simp, hk0⟩
        have hj : ∃ e, (((some e0 :: l')[j + 1]?).getD none) = some e ∧ e.key = some k0 :=
          ⟨e, by simpa using he, by rw [show k0 = ak from heq]; exact hk⟩
        have := huniq k0 0 (j + 1) h0 hj
        omega

theorem liveAssoc_length_le : ∀ l : List (Option TEntry),
    (liveAssoc l).length ≤ l.countP occupiedB := by
  intro l
  induction l with
  | nil => simp [liveAssoc]
  | cons oe l' ih =>
    rcases oe with _ | e0
    · rw [show liveAssoc (none :: l') = liveAssoc l' from by simp [liveAssoc]]
      simp only [List.countP_cons]
      omega
    · rcases hk0 : e0.key with _ | k0
      · rw [show liveAssoc (some e0 :: l') = liveAssoc l' from by simp [liveAssoc, hk0]]
        simp only [List.countP_cons]
        omega
      · rw [show liveAssoc (some e0 :: l') = (k0, e0.value) :: liveAssoc l' from by
          simp [liveAssoc, hk0]]
        have hocc : occupiedB (some e0) = true := by simp [occupiedB, hk0]
        simp [List.countP_cons, hocc]
        omega

theorem replicate_slot_none (n : Nat) :
    ∀ i : Nat, ((List.replicate n (none : Option TEntry))[i]?).getD none = none := by
  intro i
  rcases Nat.lt_or_ge i n with h | h
  · rw [List.getElem?_eq_getElem (by simpa using h)]
    simp
  · rw [List.getElem?_eq_none (by simpa using h)]
    rfl

theorem tinv_fresh (n : Nat) : TInv ⟨List.replicate n none, 0, n⟩ := by
  refine ⟨by simp, ?_, Or.inr (by show 4 * 0 ≤ 3 * n; omega), ?_, ?_, ?_⟩
  · symm
    rw [List.countP_eq_zero]
    intro a ha
    rw [List.eq_of_mem_replicate ha]
    simp [occupiedB]
  · intro i e he
    rw [show slotAt ⟨List.replicate n none, 0, n⟩ i =
      ((List.replicate n (none : Option TEntry))[i]?).getD none from rfl,
      replicate_slot_none] at he
    cases he
  · rintro k i j ⟨e, he, -⟩
    rw [show slotAt ⟨List.replicate n none, 0, n⟩ i =
      ((List.replicate n (none : Option TEntry))[i]?).getD none from rfl,
      replicate_slot_none] at he
    cases he
  · rintro k i ⟨e, he, -⟩
    rw [show slotAt ⟨List.replicate n none, 0, n⟩ i =
      ((List.replicate n (none : Option TEntry))[i]?).getD none from rfl,
      replicate_slot_none] at he
    cases he

theorem adjust_fold (f : Option Table → Option TEntry → Option Table)
    (hfn : ∀ tc, f (some tc) none = some tc)
    (hfe : ∀ tc e, e.key = none → f (some tc) (some e) = some tc)
    (hfk : ∀ tc e k, e.key = some k →
      f (some tc) (some e) = (Table.setF 1 tc k e.value).map Prod.snd) :
    ∀ (l : List (Option TEntry)) (tc : Table) (m : String → Option VmValue),
      TInv tc →
      4 * (tc.count + (liveAssoc l).length) + 4 ≤ 3 * tc.capacity →
      (∀ k' v', LiveVal tc k' v' ↔ m k' = some v') →
      (∀ k' v', (k', v') ∈ liveAssoc l → m k' = none) →
      (liveAssoc l).Pairwise (fun a b => a.1 ≠ b.1) →
      ∃ tc', l.foldl f (some tc) = some tc' ∧
        TInv tc' ∧ tc'.capacity = tc.capacity ∧
        tc'.count ≤ tc.count + (liveAssoc l).length ∧
        (∀ k' v', LiveVal tc' k' v' ↔ (m k' = some v' ∨ (k', v') ∈ liveAssoc l)) := by
  intro l
  induction l with
  | nil =>
    intro tc m hI hload hm hdisj hpw
    refine ⟨tc, rfl, hI, rfl, by simp [liveAssoc], ?_⟩
    intro k' v'
    rw [hm k' v']
    simp [liveAssoc]
  | cons oe l' ih =>
    intro tc m hI hload hm hdisj hpw
    rw [List.foldl_cons]
    rcases oe with _ | e0
    · rw [hfn tc]
      rw [show liveAssoc (none :: l') = liveAssoc l' from by simp [liveAssoc]] at hload hdisj hpw ⊢
      exact ih tc m hI hload hm hdisj hpw
    · rcases hk0 : e0.key with _ | k0
      · rw [hfe tc e0 hk0]
        rw [show liveAssoc (some e0 :: l') = liveAssoc l' from by
          simp [liveAssoc, hk0]] at hload hdisj hpw ⊢
        exact ih tc m hI hload hm hdisj hpw
      · rw [hfk tc e0 k0 hk0]
        rw [show liveAssoc (some e0 :: l') = (k0, e0.value) :: liveAssoc l' from by
          simp [liveAssoc, hk0]] at hload hdisj hpw ⊢
        rw [List.length_cons] at hload
        have hload0 : 4 * (tc.count + 1) ≤ 3 * tc.capacity := by omega
        obtain ⟨b, tc1, hs, hI1, hcap1, hcnt1, hlv1⟩ :=
          setF_spec_no_grow k0 e0.value 0 hI hload0
        rw [show Table.setF 1 tc k0 e0.value = some (b, tc1) from hs,
          show (some (b, tc1)).map Prod.snd = some tc1 from rfl]
        have hmem0 : (k0, e0.value) ∈ (k0, e0.value) :: liveAssoc l' :=
          List.mem_cons.mpr (Or.inl rfl)
        have hm0 : m k0 = none := hdisj k0 e0.value hmem0
        have hhead := (List.pairwise_cons.mp hpw).1
        have hpw' := (List.pairwise_cons.mp hpw).2
        have hm1 : ∀ k' v', LiveVal tc1 k' v' ↔
            (if k' = k0 then some e0.value else m k') = some v' := by
          intro k' v'
          rw [hlv1 k' v']
          by_cases hkk : k' = k0
          · rw [if_pos hkk]
            constructor
            · rintro (⟨-, hv⟩ | ⟨hne, -⟩)
              · rw [hv]
              · exact absurd hkk hne
            · intro h
              injection h with h2
              exact Or.inl ⟨hkk, h2.symm⟩
          · rw [if_neg hkk]
            constructor
            · rintro (⟨hkk', -⟩ | ⟨-, hlv⟩)
              · exact absurd hkk' hkk
              · exact (hm k' v').mp hlv
            · intro h
              exact Or.inr ⟨hkk, (hm k' v').mpr h⟩
        have hdisj' : ∀ k' v', (k', v') ∈ liveAssoc l' →
            (if k' = k0 then some e0.value else m k') = none := by
          intro k' v' hmem
          rw [if_neg (fun h => hhead (k', v') hmem h.symm)]
          exact hdisj k' v' (List.mem_cons.mpr (Or.inr hmem))
        obtain ⟨tc', hfold, hI', hcap', hcnt', hlv'⟩ :=
          ih tc1 (fun k' => if k' = k0 then some e0.value else m k') hI1
            (by rw [hcap1]; omega) hm1 hdisj' hpw'
        refine ⟨tc', hfold, hI', hcap'.trans hcap1, by simp; omega, ?_⟩
        intro k' v'
        rw [hlv' k' v']
        by_cases hkk : k' = k0
        · simp only [if_pos hkk]
          constructor
          · rintro (h | h)
            · injection h with h2
              exact Or.inr (List.mem_cons.mpr (Or.inl (by rw [hkk, ← h2])))
            · exact Or.inr (List.mem_cons.mpr (Or.inr h))
          · rintro (h | h)
            · rw [hkk, hm0] at h
              cases h
            · rcases List.mem_cons.mp h with heq | ht
              · exact Or.inl (by rw [show v' = e0.value from congrArg Prod.snd heq])
              · exact Or.inr ht
        · simp only [if_neg hkk]
          constructor
          · rintro (h | h)
            · exact Or.inl h
            · exact Or.inr (List.mem_cons.mpr (Or.inr h))
          · rintro (h | h)
            · exact Or.inl h
            · rcases List.mem_cons.mp h with heq | ht
              · exact absurd (congrArg Prod.fst heq) hkk
              · exact Or.inr ht

theorem set_spec {t : Table} (k : String) (v : VmValue) (hI : TInv t) :
    ∃ b t', Table.set t k v = some (b, t') ∧ TInv t' ∧
      (∀ k' v', LiveVal t' k' v' ↔ (k' = k ∧ v' = v ∨ k' ≠ k ∧ LiveVal t k' v')) := by
  by_cases hg : 4 * (t.count + 1) > 3 * t.capacity
  swap
  · obtain ⟨b, t', hs, hI', -, -, hlv⟩ := setF_spec_no_grow k v 1 hI (by omega)
    exact ⟨b, t', hs, hI', hlv⟩
  · have h8 : 8 ≤ max 8 (t.capacity * 2) := Nat.le_max_left _ _
    have hc2 : t.capacity * 2 ≤ max 8 (t.capacity * 2) := Nat.le_max_right _ _
    have hcap4 : 4 * t.count ≤ 3 * t.capacity := tinv_load hI
    have hLle : (liveAssoc t.entries).length ≤ t.count := by
      rw [hI.2.1]
      exact liveAssoc_length_le t.entries
    have hfreshI : TInv (⟨List.replicate (max 8 (t.capacity * 2)) none, 0,
        max 8 (t.capacity * 2)⟩ : Table) := tinv_fresh _
    have habs0 : ∀ k' v', LiveVal (⟨List.replicate (max 8 (t.capacity * 2)) none, 0,
        max 8 (t.capacity * 2)⟩ : Table) k' v' ↔
        (fun _ : String => (none : Option VmValue)) k' = some v' := by
      intro k' v'
      constructor
      · rintro ⟨i, e, he, -, -⟩
        rw [show slotAt ⟨List.replicate (max 8 (t.capacity * 2)) none, 0,
          max 8 (t.capacity * 2)⟩ i =
          ((List.replicate (max 8 (t.capacity * 2)) (none : Option TEntry))[i]?).getD none
          from rfl, replicate_slot_none] at he
        cases he
      · intro h
        simp at h
    obtain ⟨t1, hfold, hI1, hcap1, hcnt1, hlv1⟩ :=
      adjust_fold
        (fun acc oe =>
          match acc with
          | none => none
          | some tc =>
            match oe with
            | some e =>
              match e.key with
              | some k => (Table.setF 1 tc k e.value).map Prod.snd
              | none => some tc
            | none => some tc)
        (fun tc => rfl)
        (fun tc e h => by
          show (match e.key with
            | some k => (Table.setF 1 tc k e.value).map Prod.snd
            | none => some tc) = some tc
          rw [h])
        (fun tc e k0 h => by
          show (match e.key with
            | some k => (Table.setF 1 tc k e.value).map Prod.snd
            | none => some tc) = (Table.setF 1 tc k0 e.value).map Prod.snd
          rw [h])
        t.entries
        (⟨List.replicate (max 8 (t.capacity * 2)) none, 0, max 8 (t.capacity * 2)⟩ : Table)
        (fun _ => none) hfreshI
        (by show 4 * (0 + (liveAssoc t.entries).length) + 4 ≤ 3 * max 8 (t.capacity * 2)
            omega)
        habs0 (fun _ _ _ => rfl)
        (liveAssoc_pairwise t.entries hI.2.2.2.2.1)
    have hadj : Table.adjustCapacityF 1 t (max 8 (t.capacity * 2)) = some t1 := by
      simp only [Table.adjustCapacityF]
      exact hfold
    have hc1 : 0 < t1.capacity := by
      rw [hcap1]
      show 0 < max 8 (t.capacity * 2)
      omega
    have hcnt1' : t1.count ≤ 0 + (liveAssoc t.entries).length := hcnt1
    have hload1 : 4 * (t1.count + 1) ≤ 3 * t1.capacity := by
      rw [hcap1]
      show 4 * (t1.count + 1) ≤ 3 * max 8 (t.capacity * 2)
      omega
    obtain ⟨b, t', hw, hI', hcapw, hcntw, hlvw⟩ := writeEntry_spec k v hI1 hc1 hload1
    have hlt : ∀ k₀ v₀, LiveVal t1 k₀ v₀ ↔ LiveVal t k₀ v₀ := by
      intro k₀ v₀
      rw [hlv1 k₀ v₀]
      constructor
      · rintro (h | h)
        · simp at h
        · exact (liveAssoc_mem_iff t.entries k₀ v₀).mp h
      · intro h
        exact Or.inr ((liveAssoc_mem_iff t.entries k₀ v₀).mpr h)
    refine ⟨b, t', ?_, hI', ?_⟩
    · show Table.setF (1 + 1) t k v = some (b, t')
      rw [setF_eq_of_grow hg, hadj]
      exact hw
    · intro k' v'
      rw [hlvw k' v', hlt k' v']

theorem get_spec {t : Table} (k : String) (hI : TInv t) :
    ∃ r t', t.get k = some (r, t') ∧ TInv t' ∧
      (∀ v, r = some v ↔ LiveVal t k v) ∧
      (∀ k' v', LiveVal t' k' v' ↔ LiveVal t k' v') := by
  by_cases hc : t.capacity = 0
  · refine ⟨none, t, ?_, hI, ?_, fun _ _ => Iff.rfl⟩
    · unfold Table.get
      rw [if_pos hc]
    · intro v
      constructor
      · intro h
        cases h
      · rintro ⟨i, e, he, -, -⟩
        rw [show slotAt t i = (t.entries[i]?).getD none from rfl,
          List.getElem?_eq_none (by rw [hI.1, hc]; omega)] at he
        cases he
  · obtain ⟨t2, i, hfind, hshape, hilt, hpost⟩ := findEntry_spec k hI (Nat.pos_of_ne_zero hc)
    have hI2 := SameShape.tinv hI hshape
    unfold Table.get
    rw [if_neg hc, hfind]
    rcases hpost with ⟨e, hslot, hkf, ht2⟩ | ⟨hnl, ⟨e, hslot2, hkn⟩, -⟩
    · subst ht2
      refine ⟨some e.value, t2, ?_, hI, ?_, fun _ _ => Iff.rfl⟩
      · show some (match (t2.entries[i]?).getD none with
          | none => ((none : Option VmValue), t2)
          | some e => if e.key = none then (none, t2) else (some e.value, t2)) =
          some (some e.value, t2)
        rw [show (t2.entries[i]?).getD none = slotAt t2 i from rfl, hslot]
        show some (if e.key = none then ((none : Option VmValue), t2)
          else (some e.value, t2)) = some (some e.value, t2)
        rw [if_neg (by rw [hkf]; simp)]
      · intro v
        constructor
        · intro h
          injection h with h2
          exact ⟨i, e, hslot, hkf, h2⟩
        · rintro ⟨j, e', he', hk', hv'⟩
          have hji : j = i := hI.2.2.2.2.1 k j i ⟨e', he', hk'⟩ ⟨e, hslot, hkf⟩
          rw [hji, hslot] at he'
          injection he' with he2
          rw [← he2] at hv'
          rw [hv']
    · refine ⟨none, t2, ?_, hI2, ?_, fun k' v' => hshape.liveVal_iff k' v'⟩
      · show some (match (t2.entries[i]?).getD none with
          | none => ((none : Option VmValue), t2)
          | some e => if e.key = none then (none, t2) else (some e.value, t2)) =
          some (none, t2)
        rw [show (t2.entries[i]?).getD none = slotAt t2 i from rfl, hslot2]
        show some (if e.key = none then ((none : Option VmValue), t2)
          else (some e.value, t2)) = some (none, t2)
        rw [if_pos hkn]
      · intro v
        constructor
        · intro h
          cases h
        · rintro ⟨j, e', he', hk', -⟩
          exact absurd ⟨e', he', hk'⟩ (hnl j)

theorem delete_spec {t : Table} (k : String) (hI : TInv t) :
    ∃ b t', t.delete k = some (b, t') ∧ TInv t' ∧
      (∀ k' v', LiveVal t' k' v' ↔ (k' ≠ k ∧ LiveVal t k' v')) := by
  by_cases hc : t.capacity = 0
  · have hdead : ∀ (i : Nat) (e : TEntry), slotAt t i = some e → False := by
      intro i e he
      rw [show slotAt t i = (t.entries[i]?).getD none from rfl,
        List.getElem?_eq_none (by rw [hI.1, hc]; omega)] at he
      cases he
    refine ⟨false, t, ?_, hI, ?_⟩
    · unfold Table.delete
      rw [if_pos hc]
    · intro k' v'
      constructor
      · rintro ⟨i, e, he, -, -⟩
        exact absurd he (fun h => hdead i e h)
      · rintro ⟨-, i, e, he, -, -⟩
        exact absurd he (fun h => hdead i e h)
  · obtain ⟨t2, i, hfind, hshape, hilt, hpost⟩ := findEntry_spec k hI (Nat.pos_of_ne_zero hc)
    have hI2 := SameShape.tinv hI hshape
    unfold Table.delete
    rw [if_neg hc, hfind]
    rcases hpost with ⟨e, hslot, hkf, ht2⟩ | ⟨hnl, ⟨e, hslot2, hkn⟩, -⟩
    · subst ht2
      have hilen : i < t2.entries.length := hI.1 ▸ hilt
      have hself : slotAt { t2 with entries := t2.entries.set i (some ⟨none, e.value, true⟩) } i = some ⟨none, e.value, true⟩ := by
        show ((t2.entries.set i (some ⟨none, e.value, true⟩))[i]?).getD none = _
        rw [List.getElem?_set_eq hilen]
        rfl
      have hother : ∀ j, i ≠ j → slotAt { t2 with entries := t2.entries.set i (some ⟨none, e.value, true⟩) } j = slotAt t2 j := by
        intro j hj
        show ((t2.entries.set i (some ⟨none, e.value, true⟩))[j]?).getD none = _
        rw [List.getElem?_set_ne hj]
        rfl
      have hocc : ∀ j, occupiedB (slotAt { t2 with entries := t2.entries.set i (some ⟨none, e.value, true⟩) } j) = occupiedB (slotAt t2 j) := by
        intro j
        by_cases hj : i = j
        · rw [← hj, hself, hslot]
          simp [occupiedB, hkf]
        · rw [hother j hj]
      have hlk2 : ∀ j k₀, liveK { t2 with entries := t2.entries.set i (some ⟨none, e.value, true⟩) } j k₀ ↔ (j ≠ i ∧ liveK t2 j k₀) := by
        intro j k₀
        constructor
        · rintro ⟨e', he', hk'⟩
          by_cases hj : i = j
          · rw [← hj, hself] at he'
            injection he' with he2
            rw [← he2] at hk'
            cases hk'
          · rw [hother j hj] at he'
            exact ⟨fun h => hj h.symm, e', he', hk'⟩
        · rintro ⟨hne, e', he', hk'⟩
          rw [← hother j (fun h => hne h.symm)] at he'
          exact ⟨e', he', hk'⟩
      have hTd : TInv { t2 with entries := t2.entries.set i (some ⟨none, e.value, true⟩) } := by
        refine ⟨?_, ?_, ?_, ?_, ?_, ?_⟩
        · show (t2.entries.set i (some ⟨none, e.value, true⟩)).length = t2.capacity
          rw [List.length_set]
          exact hI.1
        · show t2.count = (t2.entries.set i (some ⟨none, e.value, true⟩)).countP occupiedB
          have hcp := countP_set t2.entries i (some ⟨none, e.value, true⟩) hilen
          rw [show (t2.entries[i]?).getD none = slotAt t2 i from rfl, hslot] at hcp
          have ho1 : occupiedB (some e) = true := by simp [occupiedB, hkf]
          have ho2 : occupiedB (some (⟨none, e.value, true⟩ : TEntry)) = true := rfl
          rw [ho1, ho2] at hcp
          simp at hcp
          rw [hI.2.1]
          omega
        · show t2.capacity = 0 ∨ 4 * t2.count ≤ 3 * t2.capacity
          exact hI.2.2.1
        · intro j e' he' hd
          by_cases hj : i = j
          · rw [← hj, hself] at he'
            injection he' with he2
            rw [← he2]
          · rw [hother j hj] at he'
            exact hI.2.2.2.1 j e' he' hd
        · intro k₀ j j' hj hj'
          rw [hlk2] at hj hj'
          exact hI.2.2.2.2.1 k₀ j j' hj.2 hj'.2
        · intro k₀ j hj
          rw [hlk2] at hj
          refine @PathTo_mono t2 { t2 with entries := t2.entries.set i (some ⟨none, e.value, true⟩) } rfl (fun j' h => ?_) k₀ j (hI.2.2.2.2.2 k₀ j hj.2)
          rw [hocc j']
          exact h
      refine ⟨true, _, ?_, hTd, ?_⟩
      · show some (match (t2.entries[i]?).getD none with
          | none => ((false : Bool), t2)
          | some e => if e.key = none then (false, t2)
              else (true, { t2 with entries := t2.entries.set i (some ⟨none, e.value, true⟩) })) =
          some (true, { t2 with entries := t2.entries.set i (some ⟨none, e.value, true⟩) })
        rw [show (t2.entries[i]?).getD none = slotAt t2 i from rfl, hslot]
        show some (if e.key = none then ((false : Bool), t2)
            else (true, { t2 with entries := t2.entries.set i (some ⟨none, e.value, true⟩) })) =
          some (true, { t2 with entries := t2.entries.set i (some ⟨none, e.value, true⟩) })
        rw [if_neg (by rw [hkf]; simp)]
      · intro k' v'
        constructor
        · rintro ⟨j, e', he', hk', hv'⟩
          have hj : i ≠ j := by
            intro h
            rw [← h, hself] at he'
            injection he' with he2
            rw [← he2] at hk'
            cases hk'
          rw [hother j hj] at he'
          refine ⟨?_, j, e', he', hk', hv'⟩
          intro hkk
          rw [hkk] at hk'
          have := hI.2.2.2.2.1 k j i ⟨e', he', hk'⟩ ⟨e, hslot, hkf⟩
          exact hj this.symm
        · rintro ⟨hne, j, e', he', hk', hv'⟩
          have hj : i ≠ j := by
            intro h
            rw [← h, hslot] at he'
            injection he' with he2
            rw [← he2] at hk'
            rw [hkf] at hk'
            injection hk' with hk2
            exact hne hk2.symm
          rw [← hother j hj] at he'
          exact ⟨j, e', he', hk', hv'⟩
    · refine ⟨false, t2, ?_, hI2, ?_⟩
      · show some (match (t2.entries[i]?).getD none with
          | none => ((false : Bool), t2)
          | some e => if e.key = none then (false, t2)
              else (true, { t2 with entries := t2.entries.set i (some ⟨none, e.value, true⟩) })) =
          some (false, t2)
        rw [show (t2.entries[i]?).getD none = slotAt t2 i from rfl, hslot2]
        show some (if e.key = none then ((false : Bool), t2)
            else (true, { t2 with entries := t2.entries.set i (some ⟨none, e.value, true⟩) })) =
          some (false, t2)
        rw [if_pos hkn]
      · intro k' v'
        rw [hshape.liveVal_iff k' v']
        constructor
        · intro h
          refine ⟨?_, h⟩
          intro hkk
          obtain ⟨j, e', he', hk', -⟩ := h
          rw [hkk] at hk'
          exact hnl j ⟨e', he', hk'⟩
        · exact fun h => h.2

/-- Reference model of the table: an association list where `set`
prepends, `delete` removes every binding of the key, and lookup returns
the first binding. -/
def Model.lookup : List (String × VmValue) → String → Option VmValue
  | [], _ => none
  | (k', v) :: rest, k => if k' = k then some v else Model.lookup rest k

def Model.setM (m : List (String × VmValue)) (k : String) (v : VmValue) :
    List (String × VmValue) :=
  (k, v) :: m

def Model.delM : List (String × VmValue) → String → List (String × VmValue)
  | [], _ => []
  | (k', v) :: rest, k =>
    if k' = k then Model.delM rest k else (k', v) :: Model.delM rest k

/-- One hash-table operation of a test sequence. -/
inductive TableOp where
  | setOp (k : String) (v : VmValue)
  | getOp (k : String)
  | delOp (k : String)

/-- Run a sequence of operations on the real table, threading the
(mutated) table through; `none` only if some fuel ran out. -/
def Table.runOps : Table → List TableOp → Option Table
  | t, [] => some t
  | t, op :: ops =>
    match op with
    | .setOp k v =>
      match t.set k v with
      | none => none
      | some p => Table.runOps p.2 ops
    | .getOp k =>
      match t.get k with
      | none => none
      | some p => Table.runOps p.2 ops
    | .delOp k =>
      match t.delete k with
      | none => none
      | some p => Table.runOps p.2 ops

def Model.runOps (m : List (String × VmValue)) : List TableOp → List (String × VmValue)
  | [] => m
  | .setOp k v :: ops => Model.runOps (Model.setM m k v) ops
  | .getOp _ :: ops => Model.runOps m ops
  | .delOp k :: ops => Model.runOps (Model.delM m k) ops

theorem lookup_delM : ∀ (m : List (String × VmValue)) (k k' : String),
    Model.lookup (Model.delM m k) k' = if k' = k then none else Model.lookup m k' := by
  intro m k
  induction m with
  | nil =>
    intro k'
    rw [show Model.delM [] k = [] from rfl,
      show (Model.lookup [] k' : Option VmValue) = none from rfl]
    split <;> rfl
  | cons p rest ih =>
    intro k'
    rcases p with ⟨pk, pv⟩
    show Model.lookup (if pk = k then Model.delM rest k
      else (pk, pv) :: Model.delM rest k) k' = _
    by_cases hpk : pk = k
    · rw [if_pos hpk, ih k']
      by_cases hk' : k' = k
      · rw [if_pos hk', if_pos hk']
      · rw [if_neg hk', if_neg hk']
        show Model.lookup rest k' = if pk = k' then some pv else Model.lookup rest k'
        rw [if_neg (by rw [hpk]; exact fun h => hk' h.symm)]
    · rw [if_neg hpk]
      show (if pk = k' then some pv else Model.lookup (Model.delM rest k) k') = _
      by_cases hpk' : pk = k'
      · rw [if_pos hpk']
        have hk' : ¬ (k' = k) := by rw [← hpk']; exact fun h => hpk h
        rw [if_neg hk']
        show some pv = if pk = k' then some pv else Model.lookup rest k'
        rw [if_pos hpk']
      · rw [if_neg hpk', ih k']
        by_cases hk' : k' = k
        · rw [if_pos hk', if_pos hk']
        · rw [if_neg hk', if_neg hk']
          show Model.lookup rest k' = if pk = k' then some pv else Model.lookup rest k'
          rw [if_neg hpk']

/-- The refinement relation: the table is well formed and maps exactly
the keys the model maps, to the same values. -/
def AbsR (t : Table) (m : List (String × VmValue)) : Prop :=
  TInv t ∧ ∀ k v, LiveVal t k v ↔ Model.lookup m k = some v

theorem absR_new : AbsR Table.new [] := by
  refine ⟨tinv_fresh 0, ?_⟩
  intro k v
  constructor
  · rintro ⟨i, e, he, -, -⟩
    rw [show slotAt Table.new i = (([] : List (Option TEntry))[i]?).getD none from rfl] at he
    simp at he
  · intro h
    simp [Model.lookup] at h

theorem runOps_abs : ∀ (ops : List TableOp) (t : Table) (m : List (String × VmValue)),
    AbsR t m → ∃ t', Table.runOps t ops = some t' ∧ AbsR t' (Model.runOps m ops) := by
  intro ops
  induction ops with
  | nil =>
    intro t m h
    exact ⟨t, rfl, h⟩
  | cons op ops ih =>
    intro t m h
    rcases op with ⟨k, v⟩ | ⟨k⟩ | ⟨k⟩
    · obtain ⟨b, t1, hs, hI1, hlv1⟩ := set_spec k v h.1
      have h1 : AbsR t1 (Model.setM m k v) := by
        refine ⟨hI1, ?_⟩
        intro k' v'
        rw [hlv1 k' v']
        show _ ↔ (if k = k' then some v else Model.lookup m k') = some v'
        by_cases hkk : k' = k
        · rw [if_pos hkk.symm]
          constructor
          · rintro (⟨-, hv⟩ | ⟨hne, -⟩)
            · rw [hv]
            · exact absurd hkk hne
          · intro hh
            injection hh with h2
            exact Or.inl ⟨hkk, h2.symm⟩
        · rw [if_neg (fun hh => hkk hh.symm)]
          rw [h.2 k' v']
          constructor
          · rintro (⟨hkk', -⟩ | ⟨-, hm⟩)
            · exact absurd hkk' hkk
            · exact hm
          · intro hh
            exact Or.inr ⟨hkk, hh⟩
      obtain ⟨t', hrun, habs⟩ := ih t1 (Model.setM m k v) h1
      refine ⟨t', ?_, habs⟩
      show (match t.set k v with
        | none => none
        | some p => Table.runOps p.2 ops) = some t'
      rw [hs]
      exact hrun
    · obtain ⟨r, t1, hg, hI1, hrv, hpres⟩ := get_spec k h.1
      have h1 : AbsR t1 m := ⟨hI1, fun k' v' => (hpres k' v').trans (h.2 k' v')⟩
      obtain ⟨t', hrun, habs⟩ := ih t1 m h1
      refine ⟨t', ?_, habs⟩
      show (match t.get k with
        | none => none
        | some p => Table.runOps p.2 ops) = some t'
      rw [hg]
      exact hrun
    · obtain ⟨b, t1, hd, hI1, hlvd⟩ := delete_spec k h.1
      have h1 : AbsR t1 (Model.delM m k) := by
        refine ⟨hI1, ?_⟩
        intro k' v'
        rw [hlvd k' v', lookup_delM m k k']
        by_cases hkk : k' = k
        · rw [if_pos hkk]
          constructor
          · rintro ⟨hne, -⟩
            exact absurd hkk hne
          · intro hh
            cases hh
        · rw [if_neg hkk]
          rw [h.2 k' v']
          constructor
          · exact fun hh => hh.2
          · exact fun hh => ⟨hkk, hh⟩
      obtain ⟨t', hrun, habs⟩ := ih t1 (Model.delM m k) h1
      refine ⟨t', ?_, habs⟩
      show (match t.delete k with
        | none => none
        | some p => Table.runOps p.2 ops) = some t'
      rw [hd]
      exact hrun

/-- C3: for every sequence of `Table.set`/`Table.get`/`Table.delete`
operations run from a fresh table, every operation succeeds (no probe
or growth-depth fuel runs out) and a final `get k` returns exactly what
the reference map — last un-deleted `set` wins — holds for `k`: the
value of the last `set k` not followed by a `delete k` (so a get after
set returns the value, a get after delete reports not-found, deleted
keys can be re-inserted), across any number of capacity growths. -/
theorem table_get_set_delete_correct (ops : List TableOp) (k : String) :
    ∃ t r t', Table.runOps Table.new ops = some t ∧ t.get k = some (r, t') ∧
      r = Model.lookup (Model.runOps [] ops) k := by
  obtain ⟨t, hrun, habs'⟩ := runOps_abs ops Table.new [] absR_new
  have hI := habs'.1
  have habs := habs'.2
  obtain ⟨r, t', hg, -, hrv, -⟩ := get_spec k hI
  refine ⟨t, r, t', hrun, hg, ?_⟩
  rcases hr : r with _ | v
  · rcases hl : Model.lookup (Model.runOps [] ops) k with _ | v
    · rfl
    · have h1 := (habs k v).mpr hl
      have h2 := (hrv v).mpr h1
      rw [hr] at h2
      cases h2
  · have hlv := (hrv v).mp hr
    rw [(habs k v).mp hlv]

/-! ### Garbage collector, modelled from the spec

Modelled from the spec: the repository source under verification contains
no collector code, so the definitions below transcribe spec section 4.7
(tri-color mark-sweep; roots are the live operand-stack slots, the
global-bindings values, each call frame\x27s closure, and the VM\x27s
open-upvalue list; out-edges per heap-object variant; sweep reclaims
every still-white tracked object). -/

/-- Modelled from the spec: a runtime value either holds no heap
reference (numbers, booleans, nil) or references a tracked object by
id. -/
inductive HVal where
  | prim : HVal
  | ref : Nat → HVal
deriving DecidableEq, Repr

/-- The object ids a value references. -/
def valRefs : HVal → List Nat
  | .prim => []
  | .ref o => [o]

/-- Modelled from the spec: the heap object variants and the fields the
mark phase traces. An open upvalue carries no closed-out value (its
value lives in a stack slot, traced as a root); a closed one owns its
value. -/
inductive HObj where
  | proto : HObj
  | closure (fn : Nat) (upvals : List Nat) : HObj
  | upvalue (closedVal : Option HVal) : HObj
  | cls (methods : List HVal) : HObj
  | inst (klass : Nat) (fields : List HVal) : HObj
  | boundMethod (receiver : Nat) (method : Nat) : HObj
deriving DecidableEq, Repr

/-- The out-edges the mark phase traces from one object: Closure → its
prototype and upvalues; Upvalue → its closed value, if closed; Class →
its method-dictionary values; Instance → its class and field values;
BoundMethod → its receiver and method. -/
def HObj.children : HObj → List Nat
  | .proto => []
  | .closure fn ups => fn :: ups
  | .upvalue none => []
  | .upvalue (some v) => valRefs v
  | .cls ms => ms.flatMap valRefs
  | .inst c fs => c :: fs.flatMap valRefs
  | .boundMethod r m => [r, m]

/-- The collector registry: tracked objects by id. -/
abbrev GcHeap := List (Nat × HObj)

def lookupObj : GcHeap → Nat → Option HObj
  | [], _ => none
  | (i, ob) :: rest, o => if i = o then some ob else lookupObj rest o

/-- Modelled from the spec: the root set — every live operand-stack
slot, every value of the global-bindings table, the closure of every
active call frame, and every upvalue on the open-upvalue list. -/
structure GcRoots where
  stackSlots : List HVal
  globalValues : List HVal
  frameClosures : List Nat
  openUpvalues : List Nat

def GcRoots.rootIds (r : GcRoots) : List Nat :=
  r.stackSlots.flatMap valRefs ++ r.globalValues.flatMap valRefs ++
    r.frameClosures ++ r.openUpvalues

/-- Reachability: an object has a path from some root. -/
inductive GcReach (h : GcHeap) (r : GcRoots) : Nat → Prop where
  | root (o : Nat) (ho : o ∈ r.rootIds) : GcReach h r o
  | step (o o' : Nat) (obj : HObj) (hreach : GcReach h r o)
      (hobj : lookupObj h o = some obj) (hchild : o' ∈ obj.children) : GcReach h r o'

/-- The mark worklist: `black` is the marked set, `grey` the pending
worklist (initially the roots).  Pops a grey object, blackens it and
greys its out-edges, until no grey remains; `none` only if the fuel
runs out. -/
def markLoop : Nat → GcHeap → List Nat → List Nat → Option (List Nat)
  | 0, _, _, _ => none
  | fuel + 1, h, black, grey =>
    match grey with
    | [] => some black
    | o :: rest =>
      if o ∈ black then markLoop fuel h black rest
      else
        match lookupObj h o with
        | none => markLoop fuel h (o :: black) rest
        | some obj => markLoop fuel h (o :: black) (obj.children ++ rest)

/-- The tracing work still chargeable to unmarked tracked objects. -/
def pendingWork (h : GcHeap) (black : List Nat) : Nat :=
  ((h.filter fun p => decide (p.1 ∉ black)).map fun p => p.2.children.length).sum

/-- A full mark phase from an empty mark set, with fuel bounded by the
total work potential. -/
def gcMark (h : GcHeap) (r : GcRoots) : Option (List Nat) :=
  markLoop (pendingWork h [] + r.rootIds.length + 1) h [] r.rootIds

/-- The sweep phase: every tracked object still white (unmarked) is
reclaimed; the survivors (implicitly reset to white) stay tracked. -/
def gcSweep (h : GcHeap) (black : List Nat) : GcHeap :=
  h.filter fun p => decide (p.1 ∈ black)

theorem pendingWork_cons (p : Nat × HObj) (rest : GcHeap) (black : List Nat) :
    pendingWork (p :: rest) black =
      (if p.1 ∈ black then 0 else p.2.children.length) + pendingWork rest black := by
  unfold pendingWork
  simp only [List.filter_cons, decide_eq_true_eq]
  by_cases hm : p.1 ∈ black
  · rw [if_neg (fun hh => hh hm), if_pos hm]
    simp
  · rw [if_pos hm, if_neg hm]
    simp

theorem pendingWork_mono : ∀ (h : GcHeap) (black black' : List Nat),
    (∀ x, x ∈ black → x ∈ black') → pendingWork h black' ≤ pendingWork h black := by
  intro h
  induction h with
  | nil => intro _ _ _; exact Nat.le_refl _
  | cons p rest ih =>
    intro black black' hsub
    rw [pendingWork_cons, pendingWork_cons]
    have hr := ih black black' hsub
    by_cases hm : p.1 ∈ black
    · rw [if_pos hm, if_pos (hsub _ hm)]
      omega
    · rw [if_neg hm]
      by_cases hm' : p.1 ∈ black'
      · rw [if_pos hm']
        omega
      · rw [if_neg hm']
        omega

theorem pendingWork_blacken : ∀ (h : GcHeap) (black : List Nat) (o : Nat) (obj : HObj),
    lookupObj h o = some obj → o ∉ black →
    pendingWork h (o :: black) + obj.children.length ≤ pendingWork h black := by
  intro h
  induction h with
  | nil =>
    intro black o obj hl
    cases hl
  | cons p rest ih =>
    intro black o obj hl hnb
    rcases p with ⟨i, ob⟩
    rw [pendingWork_cons, pendingWork_cons]
    rw [show lookupObj ((i, ob) :: rest) o = if i = o then some ob else lookupObj rest o
      from rfl] at hl
    by_cases hpo : i = o
    · rw [if_pos hpo] at hl
      injection hl with hl2
      have hmono := pendingWork_mono rest black (o :: black)
        (fun x hx => List.mem_cons_of_mem o hx)
      rw [show ((i, ob) : Nat × HObj).1 = i from rfl, show ((i, ob) : Nat × HObj).2 = ob
        from rfl, if_pos (by rw [hpo]; exact List.mem_cons_self o black), if_neg (by
        rw [hpo]; exact hnb), hl2]
      omega
    · rw [if_neg hpo] at hl
      have hrec := ih black o obj hl hnb
      have hiff : (i ∈ o :: black) ↔ (i ∈ black) := by
        rw [List.mem_cons]
        constructor
        · rintro (he | hm)
          · exact absurd he hpo
          · exact hm
        · exact Or.inr
      rw [show ((i, ob) : Nat × HObj).1 = i from rfl]
      by_cases hm : i ∈ black
      · rw [if_pos hm, if_pos (hiff.mpr hm)]
        omega
      · rw [if_neg hm, if_neg (fun hh => hm (hiff.mp hh))]
        omega

theorem markLoop_spec (h : GcHeap) (r : GcRoots) :
    ∀ (fuel : Nat) (black grey : List Nat),
      pendingWork h black + grey.length < fuel →
      (∀ o, o ∈ black → GcReach h r o) →
      (∀ o, o ∈ grey → GcReach h r o) →
      (∀ o, o ∈ black → ∀ obj, lookupObj h o = some obj →
        ∀ c, c ∈ obj.children → c ∈ black ∨ c ∈ grey) →
      (∀ o, o ∈ r.rootIds → o ∈ black ∨ o ∈ grey) →
      ∃ black', markLoop fuel h black grey = some black' ∧
        (∀ o, o ∈ black' → GcReach h r o) ∧
        (∀ o, GcReach h r o → o ∈ black') := by
  intro fuel
  induction fuel with
  | zero =>
    intro black grey hphi _ _ _ _
    omega
  | succ fuel ih =>
    intro black grey hphi hrb hrg hclosed hroots
    rcases grey with _ | ⟨o, rest⟩
    · refine ⟨black, rfl, hrb, ?_⟩
      intro x hreach
      induction hreach with
      | root o' hmem =>
        rcases hroots o' hmem with hb | hg
        · exact hb
        · cases hg
      | step o1 o2 obj hre hobj hc ihstep =>
        rcases hclosed o1 ihstep obj hobj o2 hc with hb | hg
        · exact hb
        · cases hg
    · have hstep : markLoop (fuel + 1) h black (o :: rest) =
          if o ∈ black then markLoop fuel h black rest
          else match lookupObj h o with
            | none => markLoop fuel h (o :: black) rest
            | some obj => markLoop fuel h (o :: black) (obj.children ++ rest) := rfl
      rw [hstep]
      by_cases hob : o ∈ black
      · rw [if_pos hob]
        refine ih black rest (by simp only [List.length_cons] at hphi; omega) hrb
          (fun x hx => hrg x (List.mem_cons_of_mem o hx)) ?_ ?_
        · intro x hx obj hobj c hc
          rcases hclosed x hx obj hobj c hc with hb | hg
          · exact Or.inl hb
          · rcases List.mem_cons.mp hg with he | ht
            · exact Or.inl (he ▸ hob)
            · exact Or.inr ht
        · intro x hx
          rcases hroots x hx with hb | hg
          · exact Or.inl hb
          · rcases List.mem_cons.mp hg with he | ht
            · exact Or.inl (he ▸ hob)
            · exact Or.inr ht
      · rw [if_neg hob]
        rcases hlo : lookupObj h o with _ | obj
        · have hmono := pendingWork_mono h black (o :: black)
            (fun x hx => List.mem_cons_of_mem o hx)
          refine ih (o :: black) rest
            (by simp only [List.length_cons] at hphi; omega) ?_
            (fun x hx => hrg x (List.mem_cons_of_mem o hx)) ?_ ?_
          · intro x hx
            rcases List.mem_cons.mp hx with he | hm
            · exact he ▸ hrg o (List.mem_cons_self o rest)
            · exact hrb x hm
          · intro x hx obj' hobj' c hc
            rcases List.mem_cons.mp hx with he | hm
            · rw [he, hlo] at hobj'
              cases hobj'
            · rcases hclosed x hm obj' hobj' c hc with hb | hg
              · exact Or.inl (List.mem_cons_of_mem o hb)
              · rcases List.mem_cons.mp hg with he2 | ht
                · exact Or.inl (he2 ▸ List.mem_cons_self o black)
                · exact Or.inr ht
          · intro x hx
            rcases hroots x hx with hb | hg
            · exact Or.inl (List.mem_cons_of_mem o hb)
            · rcases List.mem_cons.mp hg with he | ht
              · exact Or.inl (he ▸ List.mem_cons_self o black)
              · exact Or.inr ht
        · have hblk := pendingWork_blacken h black o obj hlo hob
          refine ih (o :: black) (obj.children ++ rest)
            (by
              rw [List.length_append]
              simp only [List.length_cons] at hphi
              omega) ?_ ?_ ?_ ?_
          · intro x hx
            rcases List.mem_cons.mp hx with he | hm
            · exact he ▸ hrg o (List.mem_cons_self o rest)
            · exact hrb x hm
          · intro x hx
            rcases List.mem_append.mp hx with hc | hr
            · exact GcReach.step o x obj (hrg o (List.mem_cons_self o rest)) hlo hc
            · exact hrg x (List.mem_cons_of_mem o hr)
          · intro x hx obj' hobj' c hc
            rcases List.mem_cons.mp hx with he | hm
            · rw [he, hlo] at hobj'
              injection hobj' with h2
              exact Or.inr (List.mem_append.mpr (Or.inl (h2 ▸ hc)))
            · rcases hclosed x hm obj' hobj' c hc with hb | hg
              · exact Or.inl (List.mem_cons_of_mem o hb)
              · rcases List.mem_cons.mp hg with he2 | ht
                · exact Or.inl (he2 ▸ List.mem_cons_self o black)
                · exact Or.inr (List.mem_append.mpr (Or.inr ht))
          · intro x hx
            rcases hroots x hx with hb | hg
            · exact Or.inl (List.mem_cons_of_mem o hb)
            · rcases List.mem_cons.mp hg with he | ht
              · exact Or.inl (he ▸ List.mem_cons_self o black)
              · exact Or.inr (List.mem_append.mpr (Or.inr ht))

theorem lookup_sweep : ∀ (h : GcHeap) (black : List Nat) (o : Nat),
    lookupObj (gcSweep h black) o = if o ∈ black then lookupObj h o else none := by
  intro h
  induction h with
  | nil =>
    intro black o
    rw [show gcSweep [] black = [] from rfl, show lookupObj [] o = none from rfl]
    split <;> rfl
  | cons p rest ih =>
    intro black o
    rcases p with ⟨i, ob⟩
    have hsw : gcSweep ((i, ob) :: rest) black =
        if i ∈ black then (i, ob) :: gcSweep rest black else gcSweep rest black := by
      unfold gcSweep
      simp only [List.filter_cons, decide_eq_true_eq]
    rw [hsw]
    by_cases him : i ∈ black
    · rw [if_pos him,
        show lookupObj ((i, ob) :: gcSweep rest black) o =
          (if i = o then some ob else lookupObj (gcSweep rest black) o) from rfl,
        show lookupObj ((i, ob) :: rest) o =
          (if i = o then some ob else lookupObj rest o) from rfl]
      by_cases hio : i = o
      · rw [if_pos hio, if_pos (hio ▸ him), if_pos hio]
      · rw [if_neg hio, if_neg hio, ih black o]
    · rw [if_neg him, ih black o,
        show lookupObj ((i, ob) :: rest) o =
          (if i = o then some ob else lookupObj rest o) from rfl]
      by_cases hoo : o ∈ black
      · rw [if_pos hoo, if_pos hoo, if_neg (fun he => him (by rw [he]; exact hoo))]
      · rw [if_neg hoo, if_neg hoo]

/-- C9. Modelled from the spec: after one tracing mark-sweep cycle
(roots: operand-stack slots, global bindings, call-frame closures, and
open upvalues; out-edges per heap-object variant; sweep reclaims every
still-white tracked object), a tracked object survives the cycle if and
only if it is reachable from some root — so an object reachable only
through an open upvalue held on the stack survives, and an object with
no path from any root is reclaimed within the one cycle.  The mark
phase also provably terminates (the fuel bound is never hit). -/
theorem gc_cycle_reclaims_exactly_unreachable (h : GcHeap) (r : GcRoots) :
    ∃ black, gcMark h r = some black ∧
      ∀ o obj, lookupObj h o = some obj →
        (lookupObj (gcSweep h black) o = some obj ↔ GcReach h r o) := by
  obtain ⟨black, hmark, hsound, hcomplete⟩ :=
    markLoop_spec h r (pendingWork h [] + r.rootIds.length + 1) [] r.rootIds
      (by omega)
      (fun o ho => absurd ho (List.not_mem_nil o))
      (fun o ho => GcReach.root o ho)
      (fun o ho _ _ _ _ => absurd ho (List.not_mem_nil o))
      (fun o ho => Or.inr ho)
  refine ⟨black, hmark, ?_⟩
  intro o obj hobj
  rw [lookup_sweep]
  constructor
  · intro hsw
    by_cases hb : o ∈ black
    · exact hsound o hb
    · rw [if_neg hb] at hsw
      cases hsw
  · intro hre
    rw [if_pos (hcomplete o hre)]
    exact hobj
